import Mathlib

/-!
Verification of the orderbook-replay trading-simulation kernel.

This file gives a shallow embedding, in Lean 4, of the components of the
repository that the checked claims speak about: the domain primitives
(`lob_core`), the order book (`orderbook`), the OMS (`oms`), the portfolio
(`portfolio`), the risk policies (`risk`), the simulated venue (`venue-sim`),
the engine pipeline (`engine`) and the event codec (`codec`).

Modelling conventions:
* Rust machine integers are modelled as `Nat` / `Int`; wrap-around is made
  explicit only where it matters to a claim.
* `HashMap` is modelled as an association list (`List (key × value)`); the
  hash-iteration order is arbitrary, which the list order represents.
* `BTreeMap<Price, Qty>` is modelled as an association list kept sorted by
  key ascending, so minimum = head and maximum = last.
* Rust methods taking `&mut self` become functions returning the new state.
* `SymbolId` is modelled as `Nat`; `lob_core::Symbol` compares by id
  (its `PartialEq` implementation), so events carry the id.
-/

namespace Replay

/-- `lob_core::Side`. -/
inductive Side where
  | Bid
  | Ask
deriving DecidableEq, Repr

/-- `lob_core::LevelUpdate`: price in ticks, qty in lots (`i64` values that the
`Price`/`Qty` constructors validated to be non-negative). -/
structure LevelUpdate where
  side : Side
  price : Int
  qty : Int
deriving DecidableEq, Repr

/-- `lob_core::MarketEvent`. The `symbol` field is the symbol id (`Symbol`
equality in the source compares interned ids). -/
inductive MarketEvent where
  | L2Delta (ts_ns : Nat) (symbol : Nat) (updates : List LevelUpdate)
  | L2Snapshot (ts_ns : Nat) (symbol : Nat) (bids asks : List (Int × Int))
deriving DecidableEq, Repr

/-- Insert into a `BTreeMap` modelled as a key-sorted association list. -/
def btInsert (k : Int) (v : Int) : List (Int × Int) → List (Int × Int)
  | [] => [(k, v)]
  | (k0, v0) :: rest =>
    if k < k0 then (k, v) :: (k0, v0) :: rest
    else if k = k0 then (k, v) :: rest
    else (k0, v0) :: btInsert k v rest

/-- Remove from a `BTreeMap` modelled as a key-sorted association list. -/
def btRemove (k : Int) : List (Int × Int) → List (Int × Int)
  | [] => []
  | (k0, v0) :: rest =>
    if k = k0 then rest else (k0, v0) :: btRemove k rest

/-- `orderbook::OrderBook`: one symbol, two price-sorted sides. -/
structure OrderBook where
  symbol : Nat
  bids : List (Int × Int)
  asks : List (Int × Int)
deriving DecidableEq, Repr

/-- `OrderBook::new`. -/
def OrderBook.new (symbol : Nat) : OrderBook :=
  { symbol := symbol, bids := [], asks := [] }

/-- One `L2Delta` update step of `OrderBook::apply`: `qty == 0` removes the
`(side, price)` key, otherwise assigns. -/
def OrderBook.applyUpdate (b : OrderBook) (u : LevelUpdate) : OrderBook :=
  match u.side with
  | Side.Bid =>
    if u.qty = 0 then { b with bids := btRemove u.price b.bids }
    else { b with bids := btInsert u.price u.qty b.bids }
  | Side.Ask =>
    if u.qty = 0 then { b with asks := btRemove u.price b.asks }
    else { b with asks := btInsert u.price u.qty b.asks }

/-- `OrderBook::apply`. The source `match` on the event has a single arm,
for `MarketEvent::L2Delta` (symbol mismatch returns `false` without mutating,
otherwise each update is applied and `true` is returned).  The
`MarketEvent::L2Snapshot` variant has **no arm** in the source (the `match`
is non-exhaustive), so the function's behaviour on snapshots is undefined;
that missing arm is modelled as `none`. -/
def OrderBook.apply (b : OrderBook) (ev : MarketEvent) : Option (Bool × OrderBook) :=
  match ev with
  | MarketEvent.L2Delta _ symbol updates =>
    if symbol ≠ b.symbol then some (false, b)
    else some (true, updates.foldl OrderBook.applyUpdate b)
  | MarketEvent.L2Snapshot _ _ _ _ => none

/-- `OrderBook::best_bid`: maximum bid key (last of the ascending list). -/
def OrderBook.best_bid (b : OrderBook) : Option (Int × Int) :=
  b.bids.getLast?

/-- `OrderBook::best_ask`: minimum ask key (head of the ascending list). -/
def OrderBook.best_ask (b : OrderBook) : Option (Int × Int) :=
  b.asks.head?

/-! ## Trading types (`trading_types`) -/

/-- `trading_types::TimeInForce`. -/
inductive TimeInForce where
  | Gtc
  | Ioc
  | Fok
deriving DecidableEq, Repr

/-- `trading_types::OrderType`. -/
inductive OrderType where
  | Limit
  | Market
deriving DecidableEq, Repr

/-- `trading_types::OrderStatus`. -/
inductive OrderStatus where
  | New
  | Accepted
  | Working
  | PartiallyFilled
  | Filled
  | Canceled
  | Rejected
  | Expired
deriving DecidableEq, Repr

/-- `trading_types::Intent`.  Client order ids are the `u64` values of
`ClientOrderId`, prices and quantities the validated `i64` tick/lot values. -/
inductive Intent where
  | PlaceLimit (symbol : Nat) (side : Side) (price : Int) (qty : Int)
      (tif : TimeInForce) (tag : Option String)
  | Cancel (client_order_id : Nat)
  | Replace (client_order_id : Nat) (new_price : Int) (new_qty : Int)
deriving DecidableEq, Repr

/-- `trading_types::OrderRequest` (the `Place` payload). -/
structure NewOrderRequest where
  client_order_id : Nat
  symbol : Nat
  side : Side
  order_type : OrderType
  price : Option Int
  qty : Int
  tif : TimeInForce
deriving DecidableEq, Repr

/-- `trading_types::ExecutionReport`. -/
structure ExecutionReport where
  client_order_id : Nat
  status : OrderStatus
  filled_qty : Int
  last_fill_price : Int
  fee_ticks : Int
  ts_ns : Nat
  symbol : Nat
  side : Side
deriving DecidableEq, Repr

/-! ## Strategy API (`strategy_api`) -/

/-- `strategy_api::ContextSnapshot`. -/
structure ContextSnapshot where
  ts_ns : Nat
  symbol : Nat
  best_bid : Option (Int × Int)
  best_ask : Option (Int × Int)
  position_lots : Int
  open_orders : Nat
  mid_price : Option Int
deriving DecidableEq, Repr

/-- `ContextSnapshot::new`: the mid price is `(bid + ask) / 2` (Rust `i64`
division truncates; both operands are non-negative here) when both sides are
present, re-validated through `Price::new(..).ok()` which drops negatives. -/
def ContextSnapshot.new (ts_ns : Nat) (symbol : Nat)
    (best_bid best_ask : Option (Int × Int)) (position_lots : Int)
    (open_orders : Nat) : ContextSnapshot :=
  let mid_price :=
    match best_bid, best_ask with
    | some (bid, _), some (ask, _) =>
      let m := Int.tdiv (bid + ask) 2
      if 0 ≤ m then some m else none
    | _, _ => none
  { ts_ns := ts_ns, symbol := symbol, best_bid := best_bid,
    best_ask := best_ask, position_lots := position_lots,
    open_orders := open_orders, mid_price := mid_price }

/-! ## Risk (`risk`) -/

/-- `risk::RiskAction`. -/
inductive RiskAction where
  | Allow (intent : Intent)
  | Reject (reason : String)
  | Transform (intent : Intent)
deriving DecidableEq, Repr

/-- `risk::MaxPositionPolicy::evaluate` with configured `limit_lots`.
The zero-limit check comes first; then non-`PlaceLimit` intents are allowed;
then the projected position is checked against the absolute limit. -/
def MaxPositionPolicy.evaluate (limit_lots : Int) (ctx : ContextSnapshot)
    (intent : Intent) : RiskAction :=
  let limit := limit_lots.natAbs
  if limit = 0 then
    RiskAction.Reject "position limit is zero"
  else
    match intent with
    | Intent.PlaceLimit _ side _ qty _ _ =>
      let projected :=
        if side = Side.Bid then ctx.position_lots + qty
        else ctx.position_lots - qty
      if projected.natAbs > limit then
        RiskAction.Reject "max position exceeded"
      else
        RiskAction.Allow intent
    | _ => RiskAction.Allow intent

/-! ## Claim C1: `OrderBook::apply` on an `L2Snapshot` -/

/-- C1 failing input: the book of the venue-sim test
`passive_fills_are_emitted_in_client_order_id_order`. -/
def bookC1 : OrderBook := OrderBook.new 1

/-- C1 failing input: the `L2Snapshot` that this repository's own test suite
(`venue-sim`, `engine`, scenario S1 of the spec) feeds to `OrderBook::apply`
expecting `true`. -/
def snapshotC1 : MarketEvent :=
  MarketEvent.L2Snapshot 1 1 [(99, 1)] [(110, 1)]

/-- C1: the claim says `apply` on a matching `L2Snapshot` returns `true` and
replaces both sides wholesale.  The source `match` in `OrderBook::apply` has
no `L2Snapshot` arm at all (it is non-exhaustive over `MarketEvent`), so the
snapshot behaviour the spec and the crate's own tests demand is missing: the
embedded `apply` is undefined (`none`) on every snapshot, including this one
taken from the repository's tests. -/
theorem orderbook_apply_snapshot_missing_arm :
    OrderBook.apply bookC1 snapshotC1 = none := rfl

/-! ## Claim C8: `MaxPositionPolicy` on non-place intents -/

/-- A concrete context for the C8 counterexample. -/
def ctxC8 : ContextSnapshot :=
  ContextSnapshot.new 1 0 (some (100, 1)) (some (102, 1)) 0 0

/-- C8 counterexample: with a configured limit of zero, `evaluate` rejects a
`Cancel` intent (a non-place intent) instead of allowing it: the zero-limit
check precedes the non-place pass-through in the source. -/
theorem max_position_zero_limit_rejects_cancel :
    MaxPositionPolicy.evaluate 0 ctxC8 (Intent.Cancel 1) =
      RiskAction.Reject "position limit is zero" ∧
    MaxPositionPolicy.evaluate 0 ctxC8 (Intent.Cancel 1) ≠
      RiskAction.Allow (Intent.Cancel 1) := by
  constructor
  · rfl
  · intro h
    simp [MaxPositionPolicy.evaluate] at h

/-- Whether an intent is a `PlaceLimit`. -/
def Intent.isPlace : Intent → Bool
  | Intent.PlaceLimit _ _ _ _ _ _ => true
  | _ => false

/-- C8 (amended): for every context and every *non-zero* configured limit,
`MaxPositionPolicy::evaluate` allows every non-place intent unchanged. For a
zero limit it rejects all intents, non-place ones included. -/
theorem max_position_nonplace_allowed (limit_lots : Int) (ctx : ContextSnapshot)
    (intent : Intent) (hl : limit_lots ≠ 0) (hi : intent.isPlace = false) :
    MaxPositionPolicy.evaluate limit_lots ctx intent = RiskAction.Allow intent := by
  have hlim : limit_lots.natAbs ≠ 0 := by
    simpa [Int.natAbs_eq_zero] using hl
  cases intent with
  | PlaceLimit s sd p q t tg => simp [Intent.isPlace] at hi
  | Cancel c => simp [MaxPositionPolicy.evaluate, hlim]
  | Replace c p q => simp [MaxPositionPolicy.evaluate, hlim]

/-- C8 witness: the amended theorem at limit 5 and a concrete `Cancel`. -/
theorem max_position_nonplace_allowed_witness :
    MaxPositionPolicy.evaluate 5 ctxC8 (Intent.Cancel 7) =
      RiskAction.Allow (Intent.Cancel 7) :=
  max_position_nonplace_allowed 5 ctxC8 (Intent.Cancel 7) (by decide) (by decide)

/-! ## Association-list model of `HashMap` -/

/-- `HashMap::get`: value of the first entry with the given key. -/
def assocGet {β : Type} (l : List (Nat × β)) (k : Nat) : Option β :=
  match l with
  | [] => none
  | (k0, v0) :: rest => if k0 = k then some v0 else assocGet rest k

/-- `HashMap::insert`: replace the entry with the given key, or append. -/
def assocSet {β : Type} (l : List (Nat × β)) (k : Nat) (v : β) : List (Nat × β) :=
  match l with
  | [] => [(k, v)]
  | (k0, v0) :: rest =>
    if k0 = k then (k, v) :: rest else (k0, v0) :: assocSet rest k v

/-- `HashMap::remove`: drop the first entry with the given key. -/
def assocRemove {β : Type} (l : List (Nat × β)) (k : Nat) : List (Nat × β) :=
  match l with
  | [] => []
  | (k0, v0) :: rest =>
    if k0 = k then rest else (k0, v0) :: assocRemove rest k

/-- The keys of an association list. -/
def assocKeys {β : Type} (l : List (Nat × β)) : List Nat :=
  l.map Prod.fst

theorem assocGet_assocSet_self {β : Type} (l : List (Nat × β)) (k : Nat) (v : β) :
    assocGet (assocSet l k v) k = some v := by
  induction l with
  | nil => simp [assocSet, assocGet]
  | cons hd tl ih =>
    obtain ⟨k0, v0⟩ := hd
    by_cases h : k0 = k
    · simp [assocSet, assocGet, h]
    · simp [assocSet, assocGet, h, ih]

theorem assocSet_of_absent {β : Type} (l : List (Nat × β)) (k : Nat) (v : β)
    (h : assocGet l k = none) : assocSet l k v = l ++ [(k, v)] := by
  induction l with
  | nil => simp [assocSet]
  | cons hd tl ih =>
    obtain ⟨k0, v0⟩ := hd
    by_cases hk : k0 = k
    · simp [assocGet, hk] at h
    · simp [assocGet, hk] at h
      simp [assocSet, hk, ih h]

theorem assocKeys_assocSet_of_present {β : Type} (l : List (Nat × β)) (k : Nat)
    (v : β) (h : assocGet l k ≠ none) :
    assocKeys (assocSet l k v) = assocKeys l := by
  induction l with
  | nil => simp [assocGet] at h
  | cons hd tl ih =>
    obtain ⟨k0, v0⟩ := hd
    by_cases hk : k0 = k
    · simp [assocSet, assocKeys, hk]
    · simp [assocGet, hk] at h
      simp [assocSet, assocKeys, hk] at ih ⊢
      exact ih h

/-! ## OMS (`oms`) -/

/-- `oms::OrderState`. -/
inductive OrderState where
  | PendingNew
  | Live
  | PendingCancel
  | Canceled
  | Filled
  | Rejected
deriving DecidableEq, Repr

/-- `OrderState::is_terminal`. -/
def OrderState.is_terminal : OrderState → Bool
  | OrderState.Canceled => true
  | OrderState.Filled => true
  | OrderState.Rejected => true
  | _ => false

/-- `oms::OrderEntry`. -/
structure OrderEntry where
  state : OrderState
  filled_qty : Int
deriving DecidableEq, Repr

/-- `oms::OrderRequest`. -/
inductive OrderRequest where
  | Place (order : NewOrderRequest)
  | Cancel (client_order_id : Nat) (ts_ns : Nat)
  | Replace (client_order_id : Nat) (new_price : Int) (new_qty : Int) (ts_ns : Nat)
deriving DecidableEq, Repr

/-- `oms::Oms`. -/
structure Oms where
  next_id : Nat
  orders : List (Nat × OrderEntry)
  open_orders_count : Nat
  orphan_reports : Nat
deriving DecidableEq, Repr

/-- `Oms::new`. -/
def Oms.new : Oms :=
  { next_id := 1, orders := [], open_orders_count := 0, orphan_reports := 0 }

/-- `oms::map_status`. -/
def map_status : OrderStatus → OrderState
  | OrderStatus.New => OrderState.PendingNew
  | OrderStatus.Accepted => OrderState.Live
  | OrderStatus.Working => OrderState.Live
  | OrderStatus.PartiallyFilled => OrderState.Live
  | OrderStatus.Canceled => OrderState.Canceled
  | OrderStatus.Expired => OrderState.Canceled
  | OrderStatus.Filled => OrderState.Filled
  | OrderStatus.Rejected => OrderState.Rejected

/-- `Oms::apply_intent`: returns the updated OMS and the optional request
(the Rust method mutates `self` and returns `Option<OrderRequest>`). -/
def Oms.apply_intent (s : Oms) (intent : Intent) (ts_ns : Nat) :
    Oms × Option OrderRequest :=
  match intent with
  | Intent.PlaceLimit symbol side price qty tif _ =>
    ({ s with
        next_id := s.next_id + 1,
        orders := assocSet s.orders s.next_id
          ({ state := OrderState.PendingNew, filled_qty := 0 }),
        open_orders_count := s.open_orders_count + 1 },
      some (OrderRequest.Place
        { client_order_id := s.next_id, symbol := symbol, side := side,
          order_type := OrderType.Limit, price := some price, qty := qty,
          tif := tif }))
  | Intent.Cancel client_order_id =>
    match assocGet s.orders client_order_id with
    | some entry =>
      ((if entry.state.is_terminal then s
        else { s with
            orders := assocSet s.orders client_order_id
              ({ entry with state := OrderState.PendingCancel }) }),
        some (OrderRequest.Cancel client_order_id ts_ns))
    | none => (s, none)
  | Intent.Replace client_order_id new_price new_qty =>
    match assocGet s.orders client_order_id with
    | some entry =>
      ((if entry.state.is_terminal then s
        else { s with
            orders := assocSet s.orders client_order_id
              ({ entry with state := OrderState.PendingNew }) }),
        some (OrderRequest.Replace client_order_id new_price new_qty ts_ns))
    | none => (s, none)

/-- `Oms::on_execution_report`.  `open_orders_count` uses saturating `usize`
arithmetic in the source; `Nat` subtraction saturates the same way. -/
def Oms.on_execution_report (s : Oms) (report : ExecutionReport) : Oms :=
  match assocGet s.orders report.client_order_id with
  | none => { s with orphan_reports := s.orphan_reports + 1 }
  | some entry =>
    let new_state := map_status report.status
    if report.filled_qty < entry.filled_qty then s
    else if report.filled_qty = entry.filled_qty ∧ entry.state = new_state then s
    else
      let was_open := !entry.state.is_terminal
      let is_open := !new_state.is_terminal
      let count :=
        if was_open ∧ !is_open then s.open_orders_count - 1
        else if !was_open ∧ is_open then s.open_orders_count + 1
        else s.open_orders_count
      { s with
        orders := assocSet s.orders report.client_order_id
          ({ state := new_state, filled_qty := report.filled_qty }),
        open_orders_count := count }

/-- The number of entries whose state is non-terminal. -/
def Oms.countOpen (orders : List (Nat × OrderEntry)) : Nat :=
  (orders.filter fun p => !p.2.state.is_terminal).length

/-- OMS states reachable from `Oms::new` by `apply_intent` and
`on_execution_report`. -/
inductive Oms.Reachable : Oms → Prop where
  | init : Oms.Reachable Oms.new
  | step_intent {s : Oms} (intent : Intent) (ts_ns : Nat) :
      Oms.Reachable s → Oms.Reachable (s.apply_intent intent ts_ns).1
  | step_report {s : Oms} (report : ExecutionReport) :
      Oms.Reachable s → Oms.Reachable (s.on_execution_report report)

/-- The inductive invariant for C3: the open-order counter matches the number
of non-terminal entries, and every key is below `next_id`. -/
def Oms.Inv (s : Oms) : Prop :=
  Oms.countOpen s.orders = s.open_orders_count ∧
  ∀ k ∈ assocKeys s.orders, k < s.next_id

theorem countOpen_cons (p : Nat × OrderEntry) (l : List (Nat × OrderEntry)) :
    Oms.countOpen (p :: l) =
      Oms.countOpen l + (if p.2.state.is_terminal then 0 else 1) := by
  simp only [Oms.countOpen, List.filter_cons]
  cases h : p.2.state.is_terminal <;> simp [h]

theorem mem_keys_of_assocGet {β : Type} (l : List (Nat × β)) (k : Nat) (v : β)
    (h : assocGet l k = some v) : k ∈ assocKeys l := by
  induction l with
  | nil => simp [assocGet] at h
  | cons hd tl ih =>
    obtain ⟨k0, v0⟩ := hd
    by_cases hk : k0 = k
    · simp [assocKeys, hk]
    · rw [assocGet, if_neg hk] at h
      simp only [assocKeys, List.map_cons, List.mem_cons]
      exact Or.inr (ih h)

theorem countOpen_assocSet_present (l : List (Nat × OrderEntry)) (k : Nat)
    (e e' : OrderEntry) (h : assocGet l k = some e) :
    Oms.countOpen (assocSet l k e') + (if e.state.is_terminal then 0 else 1) =
      Oms.countOpen l + (if e'.state.is_terminal then 0 else 1) := by
  induction l with
  | nil => simp [assocGet] at h
  | cons hd tl ih =>
    obtain ⟨k0, e0⟩ := hd
    rw [assocGet] at h
    by_cases hk : k0 = k
    · rw [if_pos hk] at h
      have he : e0 = e := Option.some.inj h
      rw [assocSet, if_pos hk, countOpen_cons, countOpen_cons, he]
      cases ht : e.state.is_terminal <;> cases ht' : e'.state.is_terminal <;>
        simp [ht, ht']
    · rw [if_neg hk] at h
      have hih := ih h
      rw [assocSet, if_neg hk, countOpen_cons, countOpen_cons]
      cases ht : e.state.is_terminal <;> cases ht' : e'.state.is_terminal <;>
        cases h0 : e0.state.is_terminal <;>
        simp only [ht, ht', h0, if_true, if_false] at hih ⊢ <;> omega

theorem countOpen_append_one (l : List (Nat × OrderEntry)) (k : Nat)
    (e : OrderEntry) (h : e.state.is_terminal = false) :
    Oms.countOpen (l ++ [(k, e)]) = Oms.countOpen l + 1 := by
  simp [Oms.countOpen, List.filter_append, h]

theorem Oms.inv_init : Oms.Inv Oms.new := by
  constructor
  · rfl
  · intro k hk
    simp [Oms.new, assocKeys] at hk

theorem Oms.inv_apply_intent (s : Oms) (intent : Intent) (ts_ns : Nat)
    (h : Oms.Inv s) : Oms.Inv (s.apply_intent intent ts_ns).1 := by
  obtain ⟨hcount, hkeys⟩ := h
  cases intent with
  | PlaceLimit symbol side price qty tif tag =>
    have habsent : assocGet s.orders s.next_id = none := by
      cases hget : assocGet s.orders s.next_id with
      | none => rfl
      | some e =>
        exact absurd (hkeys _ (mem_keys_of_assocGet _ _ _ hget)) (lt_irrefl _)
    constructor
    · simp only [Oms.apply_intent]
      rw [assocSet_of_absent _ _ _ habsent,
        countOpen_append_one s.orders s.next_id
          ({ state := OrderState.PendingNew, filled_qty := 0 }) rfl, hcount]
    · intro k hk
      simp only [Oms.apply_intent] at hk ⊢
      rw [assocSet_of_absent _ _ _ habsent] at hk
      simp only [assocKeys, List.map_append, List.mem_append, List.map_cons,
        List.map_nil, List.mem_cons, List.not_mem_nil, or_false] at hk
      rcases hk with hk | hk
      · exact Nat.lt_succ_of_lt (hkeys k hk)
      · omega
  | Cancel client_order_id =>
    cases hget : assocGet s.orders client_order_id with
    | none =>
      simp only [Oms.apply_intent, hget]
      exact ⟨hcount, hkeys⟩
    | some entry =>
      cases hterm : entry.state.is_terminal with
      | true =>
        simp only [Oms.apply_intent, hget, hterm, if_true]
        exact ⟨hcount, hkeys⟩
      | false =>
        simp only [Oms.apply_intent, hget, hterm, Bool.false_eq_true, if_false]
        constructor
        · have hc := countOpen_assocSet_present s.orders client_order_id entry
            ({ entry with state := OrderState.PendingCancel }) hget
          rw [hterm] at hc
          simp only [Bool.false_eq_true, if_false, OrderState.is_terminal] at hc
          dsimp only
          omega
        · intro k hk
          simp only at hk
          rw [assocKeys_assocSet_of_present _ _ _ (by simp [hget])] at hk
          exact hkeys k hk
  | Replace client_order_id new_price new_qty =>
    cases hget : assocGet s.orders client_order_id with
    | none =>
      simp only [Oms.apply_intent, hget]
      exact ⟨hcount, hkeys⟩
    | some entry =>
      cases hterm : entry.state.is_terminal with
      | true =>
        simp only [Oms.apply_intent, hget, hterm, if_true]
        exact ⟨hcount, hkeys⟩
      | false =>
        simp only [Oms.apply_intent, hget, hterm, Bool.false_eq_true, if_false]
        constructor
        · have hc := countOpen_assocSet_present s.orders client_order_id entry
            ({ entry with state := OrderState.PendingNew }) hget
          rw [hterm] at hc
          simp only [Bool.false_eq_true, if_false, OrderState.is_terminal] at hc
          dsimp only
          omega
        · intro k hk
          simp only at hk
          rw [assocKeys_assocSet_of_present _ _ _ (by simp [hget])] at hk
          exact hkeys k hk

theorem Oms.inv_on_execution_report (s : Oms) (report : ExecutionReport)
    (h : Oms.Inv s) : Oms.Inv (s.on_execution_report report) := by
  obtain ⟨hcount, hkeys⟩ := h
  cases hget : assocGet s.orders report.client_order_id with
  | none =>
    simp only [Oms.on_execution_report, hget]
    exact ⟨hcount, hkeys⟩
  | some entry =>
    simp only [Oms.on_execution_report, hget]
    by_cases hlt : report.filled_qty < entry.filled_qty
    · simp only [if_pos hlt]
      exact ⟨hcount, hkeys⟩
    · simp only [if_neg hlt]
      by_cases heq : report.filled_qty = entry.filled_qty ∧
          entry.state = map_status report.status
      · simp only [if_pos heq]
        exact ⟨hcount, hkeys⟩
      · simp only [if_neg heq]
        have hc := countOpen_assocSet_present s.orders report.client_order_id
          entry ({ state := map_status report.status,
                   filled_qty := report.filled_qty }) hget
        constructor
        · simp only at hc ⊢
          cases ht : entry.state.is_terminal <;>
            cases ht' : (map_status report.status).is_terminal <;>
            simp only [ht, ht', Bool.not_true, Bool.not_false, if_true,
              if_false, Bool.false_eq_true, Bool.true_eq_false, and_true,
              and_false, true_and, false_and, and_self, if_pos, if_neg,
              Bool.and_self] at hc ⊢ <;>
            simp only [show (true ∧ !true) = False by simp,
              show (!true ∧ true) = False by simp] at * <;>
            omega
        · intro k hk
          simp only at hk
          rw [assocKeys_assocSet_of_present _ _ _ (by simp [hget])] at hk
          exact hkeys k hk

theorem Oms.inv_reachable (s : Oms) (h : Oms.Reachable s) : Oms.Inv s := by
  induction h with
  | init => exact Oms.inv_init
  | step_intent intent ts_ns _ ih => exact Oms.inv_apply_intent _ intent ts_ns ih
  | step_report report _ ih => exact Oms.inv_on_execution_report _ report ih

/-- C3: in every OMS state reachable from a fresh `Oms` by any sequence of
`apply_intent` and `on_execution_report` calls, the number of order entries
in a non-terminal state equals `open_orders_count`. -/
theorem oms_open_orders_count_invariant (s : Oms) (h : Oms.Reachable s) :
    Oms.countOpen s.orders = s.open_orders_count :=
  (Oms.inv_reachable s h).1

/-- C3 witness: the invariant at a concrete reachable state (a fresh OMS after
one `PlaceLimit` intent). -/
theorem oms_open_orders_count_invariant_witness :
    Oms.countOpen ((Oms.new.apply_intent
        (Intent.PlaceLimit 0 Side.Bid 100 2 TimeInForce.Gtc none) 1).1).orders =
      ((Oms.new.apply_intent
        (Intent.PlaceLimit 0 Side.Bid 100 2 TimeInForce.Gtc none) 1).1).open_orders_count :=
  oms_open_orders_count_invariant _
    (Oms.Reachable.step_intent _ 1 Oms.Reachable.init)

/-! ## Claim C4: duplicate execution reports -/

/-- C4 counterexample input: a report whose client order id (1) is unknown to
a fresh OMS. -/
def orphanReportC4 : ExecutionReport :=
  { client_order_id := 1, status := OrderStatus.Filled, filled_qty := 1,
    last_fill_price := 100, fee_ticks := 0, ts_ns := 1, symbol := 0,
    side := Side.Bid }

/-- C4 counterexample: for a report whose client order id has no entry,
`on_execution_report` bumps the `orphan_reports` counter every time, so
applying the same report twice does not equal applying it once (the orphan
counter reads 2 instead of 1). -/
theorem oms_duplicate_orphan_report_not_idempotent :
    (Oms.new.on_execution_report orphanReportC4).on_execution_report
        orphanReportC4 ≠
      Oms.new.on_execution_report orphanReportC4 := by decide

theorem on_execution_report_fixed (s2 : Oms) (r : ExecutionReport)
    (h : assocGet s2.orders r.client_order_id =
      some ({ state := map_status r.status, filled_qty := r.filled_qty })) :
    s2.on_execution_report r = s2 := by
  simp only [Oms.on_execution_report, h]
  simp

/-- C4 (amended): duplicate execution-report processing is idempotent for
every report whose client order id has an entry in the orders map; only for
unknown ids does the second delivery differ (it bumps `orphan_reports`
again). -/
theorem oms_duplicate_report_idempotent (s : Oms) (r : ExecutionReport)
    (e : OrderEntry) (h : assocGet s.orders r.client_order_id = some e) :
    (s.on_execution_report r).on_execution_report r =
      s.on_execution_report r := by
  by_cases hlt : r.filled_qty < e.filled_qty
  · have h1 : s.on_execution_report r = s := by
      simp only [Oms.on_execution_report, h, if_pos hlt]
    simp only [h1]
  · by_cases heq : r.filled_qty = e.filled_qty ∧ e.state = map_status r.status
    · have h1 : s.on_execution_report r = s := by
        simp only [Oms.on_execution_report, h, if_neg hlt, if_pos heq]
      simp only [h1]
    · have hget' : assocGet (s.on_execution_report r).orders
          r.client_order_id =
          some ({ state := map_status r.status,
                  filled_qty := r.filled_qty }) := by
        simp only [Oms.on_execution_report, h, if_neg hlt, if_neg heq]
        exact assocGet_assocSet_self _ _ _
      exact on_execution_report_fixed _ r hget'

/-- A concrete OMS with one live order, for the C4 witness. -/
def omsC4 : Oms :=
  { next_id := 2,
    orders := [(1, { state := OrderState.Live, filled_qty := 0 })],
    open_orders_count := 1, orphan_reports := 0 }

/-- A concrete fill report for the order known to `omsC4`. -/
def reportC4 : ExecutionReport :=
  { client_order_id := 1, status := OrderStatus.Filled, filled_qty := 2,
    last_fill_price := 100, fee_ticks := 0, ts_ns := 3, symbol := 0,
    side := Side.Bid }

/-- C4 witness: the amended idempotence at a concrete OMS and report. -/
theorem oms_duplicate_report_idempotent_witness :
    (omsC4.on_execution_report reportC4).on_execution_report reportC4 =
      omsC4.on_execution_report reportC4 :=
  oms_duplicate_report_idempotent omsC4 reportC4
    ({ state := OrderState.Live, filled_qty := 0 }) (by decide)

/-! ## Claim C10: `Replace` intents on terminal entries -/

/-- C10: if the orders map has an entry for the client order id, a `Replace`
intent yields `Some Replace` even when that entry is terminal; in the terminal
case the OMS (hence the entry's state and filled qty) is unchanged; and a
`None` result implies no entry exists for the id. -/
theorem oms_replace_intent_on_any_entry (s : Oms) (coid : Nat) (p q : Int)
    (ts : Nat) (e : OrderEntry) (h : assocGet s.orders coid = some e) :
    (s.apply_intent (Intent.Replace coid p q) ts).2 =
        some (OrderRequest.Replace coid p q ts) ∧
      (e.state.is_terminal = true →
        s.apply_intent (Intent.Replace coid p q) ts =
          (s, some (OrderRequest.Replace coid p q ts))) ∧
      ∀ (s2 : Oms) (c2 : Nat),
        (s2.apply_intent (Intent.Replace c2 p q) ts).2 = none →
        assocGet s2.orders c2 = none := by
  refine ⟨?_, ?_, ?_⟩
  · simp only [Oms.apply_intent, h]
  · intro ht
    simp only [Oms.apply_intent, h, ht, if_true]
  · intro s2 c2 h2
    cases hg : assocGet s2.orders c2 with
    | none => rfl
    | some e2 =>
      simp [Oms.apply_intent, hg] at h2

/-- A concrete OMS whose only entry is terminal (`Filled`), for C10. -/
def omsC10 : Oms :=
  { next_id := 2,
    orders := [(1, { state := OrderState.Filled, filled_qty := 2 })],
    open_orders_count := 0, orphan_reports := 0 }

/-- C10 witness: the theorem at `omsC10` and a concrete `Replace` intent. -/
theorem oms_replace_intent_on_any_entry_witness :
    (omsC10.apply_intent (Intent.Replace 1 105 3) 7).2 =
        some (OrderRequest.Replace 1 105 3 7) ∧
      (({ state := OrderState.Filled, filled_qty := 2 } :
          OrderEntry).state.is_terminal = true →
        omsC10.apply_intent (Intent.Replace 1 105 3) 7 =
          (omsC10, some (OrderRequest.Replace 1 105 3 7))) ∧
      ∀ (s2 : Oms) (c2 : Nat),
        (s2.apply_intent (Intent.Replace c2 105 3) 7).2 = none →
        assocGet s2.orders c2 = none :=
  oms_replace_intent_on_any_entry omsC10 1 105 3 7
    ({ state := OrderState.Filled, filled_qty := 2 }) (by decide)

/-! ## Portfolio (`portfolio`) -/

/-- `portfolio::Position` (`i64` position, `i128` accumulators, optional
average entry price). -/
structure Position where
  position_lots : Int
  realized_pnl_ticks : Int
  fees_paid_ticks : Int
  avg_entry_price_ticks : Option Int
deriving DecidableEq, Repr

/-- `Position::default()`. -/
def Position.default : Position :=
  { position_lots := 0, realized_pnl_ticks := 0, fees_paid_ticks := 0,
    avg_entry_price_ticks := none }

/-- `portfolio::Portfolio`; `positions` is keyed by symbol id (`Symbol`
compares by id) and `filled_by_order` by client order id. -/
structure Portfolio where
  positions : List (Nat × Position)
  filled_by_order : List (Nat × Int)
deriving DecidableEq, Repr

/-- `Portfolio::new`. -/
def Portfolio.new : Portfolio :=
  { positions := [], filled_by_order := [] }

/-- The per-position part of `Portfolio::on_execution_report` (steps 5-8 of
spec 4.3): realize P&L when reducing or flipping, update the position and the
average entry price, accrue fees.  `signed_qty` is the signed incremental
fill, `fill_price` the report's last fill price, `fee` the report's fee. -/
def Portfolio.apply_fill (pos : Position) (fill_price signed_qty fee : Int) :
    Position :=
  let realized :=
    if pos.position_lots ≠ 0 ∧ pos.position_lots.sign ≠ signed_qty.sign then
      match pos.avg_entry_price_ticks with
      | some avg_entry =>
        let close_qty : Int := min signed_qty.natAbs pos.position_lots.natAbs
        let pnl_per_lot :=
          if pos.position_lots > 0 then fill_price - avg_entry
          else avg_entry - fill_price
        pos.realized_pnl_ticks + pnl_per_lot * close_qty
      | none => pos.realized_pnl_ticks
    else pos.realized_pnl_ticks
  let new_position := pos.position_lots + signed_qty
  let avg :=
    if new_position = 0 then none
    else if pos.position_lots = 0 ∨ pos.position_lots.sign = signed_qty.sign then
      let old_qty : Int := pos.position_lots.natAbs
      let add_qty : Int := signed_qty.natAbs
      let old_avg := pos.avg_entry_price_ticks.getD fill_price
      some (Int.tdiv (old_avg * old_qty + fill_price * add_qty)
        (old_qty + add_qty))
    else if new_position ≠ 0 then some fill_price
    else pos.avg_entry_price_ticks
  { position_lots := new_position, realized_pnl_ticks := realized,
    fees_paid_ticks := pos.fees_paid_ticks + fee,
    avg_entry_price_ticks := avg }

/-- `Portfolio::on_execution_report`. -/
def Portfolio.on_execution_report (p : Portfolio) (report : ExecutionReport) :
    Portfolio :=
  if report.status = OrderStatus.Canceled ∨ report.status = OrderStatus.Rejected ∨
      report.status = OrderStatus.Expired then
    { p with filled_by_order :=
        assocRemove p.filled_by_order report.client_order_id }
  else if report.status ≠ OrderStatus.Filled ∧
      report.status ≠ OrderStatus.PartiallyFilled then
    p
  else
    let reported := report.filled_qty
    let prev := (assocGet p.filled_by_order report.client_order_id).getD 0
    if reported ≤ prev then
      if report.status = OrderStatus.Filled then
        { p with filled_by_order :=
            assocRemove p.filled_by_order report.client_order_id }
      else p
    else
      let filled1 := assocSet p.filled_by_order report.client_order_id reported
      let pos := (assocGet p.positions report.symbol).getD Position.default
      let signed_qty :=
        if report.side = Side.Bid then reported - prev else -(reported - prev)
      let pos' := Portfolio.apply_fill pos report.last_fill_price signed_qty
        report.fee_ticks
      { positions := assocSet p.positions report.symbol pos',
        filled_by_order :=
          if report.status = OrderStatus.Filled then
            assocRemove filled1 report.client_order_id
          else filled1 }

/-- `Portfolio::position_lots`: 0 for unknown symbols. -/
def Portfolio.position_lots (p : Portfolio) (symbol : Nat) : Int :=
  ((assocGet p.positions symbol).map Position.position_lots).getD 0

/-- The symbol's average entry price, absent when the symbol has no position
entry or the entry has no average. -/
def Portfolio.avg_entry (p : Portfolio) (symbol : Nat) : Option Int :=
  (assocGet p.positions symbol).bind Position.avg_entry_price_ticks

/-- Portfolio states reachable from `Portfolio::new` by a sequence of
`on_execution_report` calls. -/
inductive Portfolio.Reachable : Portfolio → Prop where
  | init : Portfolio.Reachable Portfolio.new
  | step {p : Portfolio} (report : ExecutionReport) :
      Portfolio.Reachable p → Portfolio.Reachable (p.on_execution_report report)

theorem assocGet_assocSet_ne {β : Type} (l : List (Nat × β)) (k k' : Nat)
    (v : β) (h : k' ≠ k) : assocGet (assocSet l k v) k' = assocGet l k' := by
  induction l with
  | nil => simp [assocSet, assocGet, Ne.symm h]
  | cons hd tl ih =>
    obtain ⟨k0, v0⟩ := hd
    by_cases hk : k0 = k
    · subst hk
      simp [assocSet, assocGet, Ne.symm h]
    · simp [assocSet, assocGet, hk, ih]

theorem apply_fill_zero_iff_absent (pos : Position) (fill_price signed_qty fee : Int) :
    ((Portfolio.apply_fill pos fill_price signed_qty fee).position_lots = 0 ↔
      (Portfolio.apply_fill pos fill_price signed_qty fee).avg_entry_price_ticks
        = none) := by
  unfold Portfolio.apply_fill
  by_cases h0 : pos.position_lots + signed_qty = 0
  · simp [h0]
  · by_cases h1 : pos.position_lots = 0 ∨ pos.position_lots.sign = signed_qty.sign
    · simp [h0, h1]
    · simp [h0, h1]

/-- The C5 invariant. -/
def Portfolio.Inv (p : Portfolio) : Prop :=
  ∀ symbol : Nat, p.position_lots symbol = 0 ↔ p.avg_entry symbol = none

theorem Portfolio.pinv_init : Portfolio.Inv Portfolio.new := by
  intro symbol
  simp [Portfolio.new, Portfolio.position_lots, Portfolio.avg_entry, assocGet]

theorem Portfolio.pinv_on_execution_report (p : Portfolio)
    (report : ExecutionReport) (h : Portfolio.Inv p) :
    Portfolio.Inv (p.on_execution_report report) := by
  intro symbol
  unfold Portfolio.on_execution_report
  by_cases hterm : report.status = OrderStatus.Canceled ∨
      report.status = OrderStatus.Rejected ∨ report.status = OrderStatus.Expired
  · simpa [hterm, Portfolio.position_lots, Portfolio.avg_entry] using h symbol
  · simp only [if_neg hterm]
    by_cases hfill : report.status ≠ OrderStatus.Filled ∧
        report.status ≠ OrderStatus.PartiallyFilled
    · simpa [hfill] using h symbol
    · simp only [if_neg hfill]
      by_cases hle : report.filled_qty ≤
          (assocGet p.filled_by_order report.client_order_id).getD 0
      · by_cases hf : report.status = OrderStatus.Filled <;>
          simpa [hle, hf, Portfolio.position_lots, Portfolio.avg_entry]
            using h symbol
      · simp only [if_neg hle]
        by_cases hsym : symbol = report.symbol
        · subst hsym
          simp only [Portfolio.position_lots, Portfolio.avg_entry,
            assocGet_assocSet_self, Option.map_some, Option.getD_some,
            Option.some_bind]
          exact apply_fill_zero_iff_absent _ _ _ _
        · simpa [Portfolio.position_lots, Portfolio.avg_entry,
            assocGet_assocSet_ne _ _ _ _ hsym] using h symbol

theorem Portfolio.pinv_reachable (p : Portfolio) (h : Portfolio.Reachable p) :
    Portfolio.Inv p := by
  induction h with
  | init => exact Portfolio.pinv_init
  | step report _ ih => exact Portfolio.pinv_on_execution_report _ report ih

/-- C5: in every portfolio state reachable from a fresh `Portfolio` by any
sequence of `on_execution_report` calls, a symbol's position is zero exactly
when its average entry price is absent. -/
theorem portfolio_position_zero_iff_avg_absent (p : Portfolio)
    (h : Portfolio.Reachable p) (symbol : Nat) :
    p.position_lots symbol = 0 ↔ p.avg_entry symbol = none :=
  Portfolio.pinv_reachable p h symbol

/-- C5 witness: the invariant at a concrete reachable portfolio (a fresh
portfolio after one fill report), at the filled symbol. -/
theorem portfolio_position_zero_iff_avg_absent_witness :
    (Portfolio.new.on_execution_report reportC4).position_lots 0 = 0 ↔
      (Portfolio.new.on_execution_report reportC4).avg_entry 0 = none :=
  portfolio_position_zero_iff_avg_absent _
    (Portfolio.Reachable.step reportC4 Portfolio.Reachable.init) 0

/-! ## Simulated venue (`venue_sim`)

The venue holds a shared read-only handle to the order book; each method
starts by borrowing the book and reading `(best_bid, best_ask)`.  The
embedding passes that top-of-book pair to each method explicitly. -/

/-- `venue_sim::MAX_PASSIVE_FILLS_PER_EVENT`. -/
def MAX_PASSIVE_FILLS_PER_EVENT : Nat := 1024

/-- `venue_sim::LiveOrder`. -/
structure LiveOrder where
  symbol : Nat
  side : Side
  price : Option Int
  qty : Int
deriving DecidableEq, Repr

/-- `venue_sim::SimVenue` (without the shared book handle, which is passed
into each method as the top-of-book it reads). -/
structure SimVenue where
  maker_fee_ticks : Int
  taker_fee_ticks : Int
  next_ts_ns : Nat
  live_orders : List (Nat × LiveOrder)
deriving DecidableEq, Repr

/-- `SimVenue::new`. -/
def SimVenue.new (maker_fee_ticks taker_fee_ticks : Int) : SimVenue :=
  { maker_fee_ticks := maker_fee_ticks, taker_fee_ticks := taker_fee_ticks,
    next_ts_ns := 1, live_orders := [] }

/-- `SimVenue::next_ts`: returns the current venue timestamp and advances it
(`u64` saturating add). -/
def SimVenue.next_ts (st : SimVenue) : Nat × SimVenue :=
  (st.next_ts_ns,
    { st with next_ts_ns := min (st.next_ts_ns + 1) (2 ^ 64 - 1) })

/-- `SimVenue::passive_fill_price`: the crossing price of a limit against the
top-of-book (a bid crosses when `limit ≥ best_ask`, an ask when
`limit ≤ best_bid`; the fill price is the opposite top).  The same expression
appears inline in `handle_place` and `handle_replace`. -/
def SimVenue.passive_fill_price (side : Side) (limit_price : Int)
    (best_bid best_ask : Option (Int × Int)) : Option Int :=
  match side with
  | Side.Bid =>
    match best_ask with
    | some (ask, _) => if limit_price ≥ ask then some ask else none
    | none => none
  | Side.Ask =>
    match best_bid with
    | some (bid, _) => if limit_price ≤ bid then some bid else none
    | none => none

/-- `SimVenue::rejected`. -/
def SimVenue.rejected (st : SimVenue) (order : NewOrderRequest) :
    ExecutionReport × SimVenue :=
  ({ client_order_id := order.client_order_id, status := OrderStatus.Rejected,
     filled_qty := 0, last_fill_price := order.price.getD 0, fee_ticks := 0,
     ts_ns := st.next_ts_ns, symbol := order.symbol, side := order.side },
   (st.next_ts).2)

/-- The tail of `handle_place` after the crossing price is computed: emit the
`Accepted` report, then either the `Filled` report (taker fee, full qty) or,
for a limit, insert into `live_orders`. -/
def SimVenue.place_with_crossing (st : SimVenue) (crossing_price : Option Int)
    (order : NewOrderRequest) : SimVenue × List ExecutionReport :=
  let ack : ExecutionReport :=
    { client_order_id := order.client_order_id, status := OrderStatus.Accepted,
      filled_qty := 0,
      last_fill_price := (crossing_price.or order.price).getD 0,
      fee_ticks := 0, ts_ns := st.next_ts_ns, symbol := order.symbol,
      side := order.side }
  let st1 := (st.next_ts).2
  match crossing_price with
  | some fill_price =>
    let fill : ExecutionReport :=
      { client_order_id := order.client_order_id, status := OrderStatus.Filled,
        filled_qty := order.qty, last_fill_price := fill_price,
        fee_ticks := st.taker_fee_ticks, ts_ns := st1.next_ts_ns,
        symbol := order.symbol, side := order.side }
    ((st1.next_ts).2, [ack, fill])
  | none =>
    if order.order_type = OrderType.Limit then
      ({ st1 with
          live_orders := assocSet st1.live_orders order.client_order_id
            ({ symbol := order.symbol, side := order.side,
               price := order.price, qty := order.qty }) }, [ack])
    else (st1, [ack])

/-- `SimVenue::handle_place`. -/
def SimVenue.handle_place (st : SimVenue) (best_bid best_ask : Option (Int × Int))
    (order : NewOrderRequest) : SimVenue × List ExecutionReport :=
  match order.order_type with
  | OrderType.Limit =>
    match order.price with
    | none =>
      let (r, st1) := st.rejected order
      (st1, [r])
    | some limit =>
      st.place_with_crossing
        (SimVenue.passive_fill_price order.side limit best_bid best_ask) order
  | OrderType.Market =>
    st.place_with_crossing
      (match order.side with
       | Side.Bid => best_ask.map Prod.fst
       | Side.Ask => best_bid.map Prod.fst) order

/-- The candidate-collection loop of `SimVenue::on_book_update`: walk the
sorted scan ids, stop once the candidate list has reached the cap, skip ids
without a live order, a price, or a crossing, and record `(coid, fill_price)`
otherwise. -/
def SimVenue.collect_candidates (live : List (Nat × LiveOrder))
    (best_bid best_ask : Option (Int × Int)) :
    Nat → List Nat → List (Nat × Int)
  | _, [] => []
  | 0, _ :: _ => []
  | Nat.succ r, coid :: rest =>
    match assocGet live coid with
    | none => SimVenue.collect_candidates live best_bid best_ask (r + 1) rest
    | some order =>
      match order.price with
      | none => SimVenue.collect_candidates live best_bid best_ask (r + 1) rest
      | some limit_price =>
        match SimVenue.passive_fill_price order.side limit_price best_bid best_ask with
        | none => SimVenue.collect_candidates live best_bid best_ask (r + 1) rest
        | some fill_price =>
          (coid, fill_price) ::
            SimVenue.collect_candidates live best_bid best_ask r rest

/-- The emission loop of `SimVenue::on_book_update`: remove each candidate
from `live_orders` and emit its `Filled` report at the maker fee. -/
def SimVenue.emit_fills (st : SimVenue) :
    List (Nat × Int) → SimVenue × List ExecutionReport
  | [] => (st, [])
  | (coid, fill_price) :: rest =>
    match assocGet st.live_orders coid with
    | none => SimVenue.emit_fills st rest
    | some order =>
      let st1 := { st with live_orders := assocRemove st.live_orders coid }
      let st2 := (st1.next_ts).2
      let report : ExecutionReport :=
        { client_order_id := coid, status := OrderStatus.Filled,
          filled_qty := order.qty, last_fill_price := fill_price,
          fee_ticks := st.maker_fee_ticks, ts_ns := st1.next_ts_ns,
          symbol := order.symbol, side := order.side }
      ((SimVenue.emit_fills st2 rest).1,
        report :: (SimVenue.emit_fills st2 rest).2)

/-- `SimVenue::on_book_update`: snapshot the top-of-book, sort the resting
client order ids ascending, collect crossing candidates up to the cap, then
remove and fill each one. -/
def SimVenue.on_book_update (st : SimVenue)
    (best_bid best_ask : Option (Int × Int)) :
    SimVenue × List ExecutionReport :=
  let scan_ids := List.insertionSort (· ≤ ·) (assocKeys st.live_orders)
  let candidates := SimVenue.collect_candidates st.live_orders best_bid best_ask
    MAX_PASSIVE_FILLS_PER_EVENT scan_ids
  st.emit_fills candidates

/-! ## Claim C6: `handle_place` on priced limit orders -/

/-- C6: for every venue state, top-of-book and `Place` request that carries a
limit order with a price: the output starts with an `Accepted` report (zero
filled qty, zero fee); exactly when the limit crosses (bid limit ≥ best ask,
ask limit ≤ best bid) a `Filled` report for the full qty at the opposite top
price with the taker fee follows and `live_orders` is untouched; otherwise
the output is the `Accepted` report alone and the order is inserted into
`live_orders`. -/
theorem venue_place_limit_spec (st : SimVenue)
    (best_bid best_ask : Option (Int × Int)) (order : NewOrderRequest)
    (limit : Int) (ht : order.order_type = OrderType.Limit)
    (hp : order.price = some limit) :
    (st.handle_place best_bid best_ask order).2 =
      ({ client_order_id := order.client_order_id,
         status := OrderStatus.Accepted, filled_qty := 0,
         last_fill_price :=
           (((SimVenue.passive_fill_price order.side limit best_bid
             best_ask).or order.price).getD 0),
         fee_ticks := 0, ts_ns := st.next_ts_ns, symbol := order.symbol,
         side := order.side } : ExecutionReport) ::
      (match SimVenue.passive_fill_price order.side limit best_bid best_ask with
       | some fp =>
         [{ client_order_id := order.client_order_id,
            status := OrderStatus.Filled, filled_qty := order.qty,
            last_fill_price := fp, fee_ticks := st.taker_fee_ticks,
            ts_ns := ((st.next_ts).2).next_ts_ns, symbol := order.symbol,
            side := order.side }]
       | none => []) ∧
    (SimVenue.passive_fill_price order.side limit best_bid best_ask = none →
      (st.handle_place best_bid best_ask order).1.live_orders =
        assocSet st.live_orders order.client_order_id
          { symbol := order.symbol, side := order.side, price := order.price,
            qty := order.qty }) ∧
    (∀ fp, SimVenue.passive_fill_price order.side limit best_bid best_ask =
        some fp →
      (st.handle_place best_bid best_ask order).1.live_orders =
        st.live_orders) ∧
    (∀ fp, SimVenue.passive_fill_price order.side limit best_bid best_ask =
        some fp ↔
      ((order.side = Side.Bid ∧ (∃ q, best_ask = some (fp, q)) ∧ fp ≤ limit) ∨
       (order.side = Side.Ask ∧ (∃ q, best_bid = some (fp, q)) ∧ limit ≤ fp))) := by
  refine ⟨?_, ?_, ?_, ?_⟩
  · simp only [SimVenue.handle_place, ht, hp, SimVenue.place_with_crossing]
    cases hc : SimVenue.passive_fill_price order.side limit best_bid best_ask with
    | none => simp [hc, ht, hp]
    | some fp => simp [hc, hp]
  · intro hc
    simp [SimVenue.handle_place, ht, hp, SimVenue.place_with_crossing, hc,
      SimVenue.next_ts]
  · intro fp hc
    simp [SimVenue.handle_place, ht, hp, SimVenue.place_with_crossing, hc,
      SimVenue.next_ts]
  · intro fp
    constructor
    · intro hc
      cases hside : order.side with
      | Bid =>
        cases hba : best_ask with
        | none => simp [SimVenue.passive_fill_price, hside, hba] at hc
        | some aq =>
          obtain ⟨ask, q⟩ := aq
          by_cases hcross : ask ≤ limit
          · simp [SimVenue.passive_fill_price, hside, hba, hcross] at hc
            subst hc
            exact Or.inl ⟨rfl, ⟨q, rfl⟩, hcross⟩
          · simp [SimVenue.passive_fill_price, hside, hba, hcross] at hc
      | Ask =>
        cases hbb : best_bid with
        | none => simp [SimVenue.passive_fill_price, hside, hbb] at hc
        | some bq =>
          obtain ⟨bid, q⟩ := bq
          by_cases hcross : limit ≤ bid
          · simp [SimVenue.passive_fill_price, hside, hbb, hcross] at hc
            subst hc
            exact Or.inr ⟨rfl, ⟨q, rfl⟩, hcross⟩
          · simp [SimVenue.passive_fill_price, hside, hbb, hcross] at hc
    · rintro (⟨hs, ⟨q, hq⟩, hle⟩ | ⟨hs, ⟨q, hq⟩, hle⟩)
      · simp [SimVenue.passive_fill_price, hs, hq, hle]
      · simp [SimVenue.passive_fill_price, hs, hq, hle]

/-- A concrete venue (maker fee 1, taker fee 2) for the C6 witness. -/
def venueC6 : SimVenue := SimVenue.new 1 2

/-- A concrete crossing limit bid for the C6 witness. -/
def orderC6 : NewOrderRequest :=
  { client_order_id := 5, symbol := 0, side := Side.Bid,
    order_type := OrderType.Limit, price := some 105, qty := 3,
    tif := TimeInForce.Gtc }

/-- C6 witness: the report sequence of the theorem at a concrete venue,
top-of-book (100 / 101) and crossing limit bid at 105. -/
theorem venue_place_limit_spec_witness :
    (venueC6.handle_place (some (100, 1)) (some (101, 1)) orderC6).2 =
      ({ client_order_id := orderC6.client_order_id,
         status := OrderStatus.Accepted, filled_qty := 0,
         last_fill_price :=
           (((SimVenue.passive_fill_price orderC6.side 105 (some (100, 1))
             (some (101, 1))).or orderC6.price).getD 0),
         fee_ticks := 0, ts_ns := venueC6.next_ts_ns,
         symbol := orderC6.symbol, side := orderC6.side } : ExecutionReport) ::
      (match SimVenue.passive_fill_price orderC6.side 105 (some (100, 1))
          (some (101, 1)) with
       | some fp =>
         [{ client_order_id := orderC6.client_order_id,
            status := OrderStatus.Filled, filled_qty := orderC6.qty,
            last_fill_price := fp, fee_ticks := venueC6.taker_fee_ticks,
            ts_ns := ((venueC6.next_ts).2).next_ts_ns,
            symbol := orderC6.symbol, side := orderC6.side }]
       | none => []) :=
  (venue_place_limit_spec venueC6 (some (100, 1)) (some (101, 1)) orderC6 105
    rfl rfl).1

/-! ## Claim C7: passive sweep emission order -/

theorem emit_fills_coids_sublist (st : SimVenue) (cs : List (Nat × Int)) :
    ((st.emit_fills cs).2.map ExecutionReport.client_order_id).Sublist
      (cs.map Prod.fst) := by
  induction cs generalizing st with
  | nil => simp [SimVenue.emit_fills]
  | cons hd tl ih =>
    obtain ⟨coid, fp⟩ := hd
    simp only [SimVenue.emit_fills, List.map_cons]
    cases hg : assocGet st.live_orders coid with
    | none => exact (ih st).trans (List.sublist_cons_self _ _)
    | some order =>
      simp only [List.map_cons]
      exact List.Sublist.cons₂ _ (ih _)

theorem collect_candidates_fst_sublist (live : List (Nat × LiveOrder))
    (best_bid best_ask : Option (Int × Int)) (cap : Nat) (ids : List Nat) :
    ((SimVenue.collect_candidates live best_bid best_ask cap ids).map
      Prod.fst).Sublist ids := by
  induction ids generalizing cap with
  | nil => cases cap <;> simp [SimVenue.collect_candidates]
  | cons hd tl ih =>
    cases cap with
    | zero => simp [SimVenue.collect_candidates]
    | succ r =>
      simp only [SimVenue.collect_candidates]
      cases hg : assocGet live hd with
      | none =>
        dsimp only
        exact (ih (r + 1)).trans (List.sublist_cons_self _ _)
      | some order =>
        dsimp only
        cases hp : order.price with
        | none =>
          dsimp only
          exact (ih (r + 1)).trans (List.sublist_cons_self _ _)
        | some lp =>
          dsimp only
          cases hf : SimVenue.passive_fill_price order.side lp best_bid
              best_ask with
          | none =>
            dsimp only
            exact (ih (r + 1)).trans (List.sublist_cons_self _ _)
          | some fp =>
            simp only [List.map_cons]
            exact List.Sublist.cons₂ _ (ih r)

/-- C7: for every venue state (with the distinct keys a `HashMap` guarantees)
and every top-of-book, the `Filled` reports emitted by one passive sweep are
sorted by client order id strictly ascending, independent of the order in
which `live_orders` stores them. -/
theorem venue_passive_fills_sorted (st : SimVenue)
    (best_bid best_ask : Option (Int × Int))
    (h : (assocKeys st.live_orders).Nodup) :
    List.Sorted (· < ·)
      (((st.on_book_update best_bid best_ask).2).map
        ExecutionReport.client_order_id) := by
  have hsorted : List.Sorted (· ≤ ·)
      (List.insertionSort (· ≤ ·) (assocKeys st.live_orders)) :=
    List.sorted_insertionSort _ _
  have hnodup : (List.insertionSort (· ≤ ·) (assocKeys st.live_orders)).Nodup :=
    ((List.perm_insertionSort _ _).nodup_iff).2 h
  have hlt := hsorted.lt_of_le hnodup
  have h1 := collect_candidates_fst_sublist st.live_orders best_bid best_ask
    MAX_PASSIVE_FILLS_PER_EVENT
    (List.insertionSort (· ≤ ·) (assocKeys st.live_orders))
  have h2 := emit_fills_coids_sublist st
    (SimVenue.collect_candidates st.live_orders best_bid best_ask
      MAX_PASSIVE_FILLS_PER_EVENT
      (List.insertionSort (· ≤ ·) (assocKeys st.live_orders)))
  exact List.Pairwise.sublist (h2.trans h1) hlt

/-- A concrete venue with two resting bids stored in descending id order,
for the C7 witness. -/
def venueC7 : SimVenue :=
  { maker_fee_ticks := 0, taker_fee_ticks := 0, next_ts_ns := 1,
    live_orders :=
      [(20, { symbol := 1, side := Side.Bid, price := some 105, qty := 1 }),
       (10, { symbol := 1, side := Side.Bid, price := some 106, qty := 1 })] }

/-- C7 witness: the sweep over `venueC7` (both bids cross the new best ask
104) emits its fills in ascending client-order-id order. -/
theorem venue_passive_fills_sorted_witness :
    List.Sorted (· < ·)
      (((venueC7.on_book_update (some (99, 1)) (some (104, 1))).2).map
        ExecutionReport.client_order_id) :=
  venue_passive_fills_sorted venueC7 (some (99, 1)) (some (104, 1)) (by decide)

/-! ## Engine (`engine`)

`Box<dyn Strategy>` and `Box<dyn ExecutionVenue>` are modelled by a state
type (`σ`, `ν`) plus a record of transition functions; the venue callbacks
also receive the shared order book they hold a read handle to.  `RiskEngine`
is modelled by its evaluation function (`RiskEngine::evaluate`), and
`LatencyStats` by the list of recorded samples. -/

/-- The callbacks of `strategy_api::Strategy` over strategy state `σ`. -/
structure StrategyImpl (σ : Type) where
  on_market_event : σ → ContextSnapshot → MarketEvent → σ × List Intent
  on_timer : σ → ContextSnapshot → σ × List Intent
  on_execution_report : σ → ContextSnapshot → ExecutionReport → σ × List Intent

/-- The callbacks of `venue::ExecutionVenue` over venue state `ν`. -/
structure VenueImpl (ν : Type) where
  submit : ν → OrderBook → OrderRequest → ν × List ExecutionReport
  on_book_update : ν → OrderBook → ν × List ExecutionReport

/-- `engine::MAX_INTENT_STEPS`. -/
def MAX_INTENT_STEPS : Nat := 1024

/-- `engine::Engine`. -/
structure Engine (σ ν : Type) where
  book : OrderBook
  portfolio : Portfolio
  oms : Oms
  risk : ContextSnapshot → Intent → RiskAction
  strategy : σ
  venue : ν
  latency : List Nat
  intent_queue : List Intent
  intent_buffer : List Intent
  report_buffer : List ExecutionReport

/-- `Engine::build_context`. -/
def Engine.build_context {σ ν : Type} (e : Engine σ ν) (ts_ns : Nat)
    (symbol : Nat) : ContextSnapshot :=
  ContextSnapshot.new ts_ns symbol e.book.best_bid e.book.best_ask
    (e.portfolio.position_lots symbol) e.oms.open_orders_count

/-- `Engine::process_reports`: for each report in order, update the OMS, then
the portfolio, then let the strategy react at a fresh context; the reactive
intents are appended to the queue (the scratch intent buffer is drained each
iteration). -/
def Engine.process_reports {σ ν : Type} (sImpl : StrategyImpl σ)
    (e : Engine σ ν) (reports : List ExecutionReport) (queue : List Intent) :
    Engine σ ν × List Intent :=
  match reports with
  | [] => (e, queue)
  | report :: rest =>
    let e1 := { e with
      oms := e.oms.on_execution_report report,
      portfolio := e.portfolio.on_execution_report report }
    let ctx := e1.build_context report.ts_ns report.symbol
    let step := sImpl.on_execution_report e1.strategy ctx report
    Engine.process_reports sImpl { e1 with strategy := step.1 } rest
      (queue ++ step.2)

/-- `Engine::handle_intent_queue`: pop intents FIFO; the step counter (here a
countdown from `MAX_INTENT_STEPS`) is checked after each pop, so the capped
pop is dropped; risk rejection drops the intent; an absent OMS request skips
the venue; venue reports are drained through `process_reports`, which may
append further intents to the queue.  Returns the engine, the remaining
queue, and the (drained) report buffer. -/
def Engine.handle_intent_queue {σ ν : Type} (sImpl : StrategyImpl σ)
    (vImpl : VenueImpl ν) (ts_ns : Nat) (symbol : Nat) :
    Nat → Engine σ ν → List Intent → List ExecutionReport →
      Engine σ ν × List Intent × List ExecutionReport
  | _, e, [], reports => (e, [], reports)
  | 0, e, _ :: rest, reports => (e, rest, reports)
  | Nat.succ steps_left, e, intent :: rest, reports =>
    let ctx := e.build_context ts_ns symbol
    match e.risk ctx intent with
    | RiskAction.Reject _ =>
      Engine.handle_intent_queue sImpl vImpl ts_ns symbol steps_left e rest
        reports
    | RiskAction.Allow intent2 | RiskAction.Transform intent2 =>
      let applied := e.oms.apply_intent intent2 ts_ns
      let e1 := { e with oms := applied.1 }
      match applied.2 with
      | none =>
        Engine.handle_intent_queue sImpl vImpl ts_ns symbol steps_left e1 rest
          reports
      | some request =>
        let sub := vImpl.submit e1.venue e1.book request
        let e2 := { e1 with venue := sub.1 }
        let processed := Engine.process_reports sImpl e2 sub.2 rest
        Engine.handle_intent_queue sImpl vImpl ts_ns symbol steps_left
          processed.1 processed.2 []

/-- `Engine::on_market_event_deterministic`.  The book's undefined snapshot
behaviour (`OrderBook.apply = none`) propagates as `none`; otherwise the
boolean result and the new engine state are returned. -/
def Engine.on_market_event_det {σ ν : Type} (sImpl : StrategyImpl σ)
    (vImpl : VenueImpl ν) (e : Engine σ ν) (event : MarketEvent) :
    Option (Bool × Engine σ ν) :=
  match OrderBook.apply e.book event with
  | none => none
  | some (false, book') => some (false, { e with book := book' })
  | some (true, book') =>
    let ts_sym :=
      match event with
      | MarketEvent.L2Delta ts_ns symbol _ => (ts_ns, symbol)
      | MarketEvent.L2Snapshot ts_ns symbol _ _ => (ts_ns, symbol)
    let e0 := { e with
      book := book', intent_queue := [], intent_buffer := [],
      report_buffer := [] }
    let sweep := vImpl.on_book_update e0.venue e0.book
    let e1 := { e0 with venue := sweep.1 }
    let processed := Engine.process_reports sImpl e1 sweep.2 []
    let ctx := processed.1.build_context ts_sym.1 ts_sym.2
    let step := sImpl.on_market_event processed.1.strategy ctx event
    let e3 := { processed.1 with strategy := step.1 }
    let drained := Engine.handle_intent_queue sImpl vImpl ts_sym.1 ts_sym.2
      MAX_INTENT_STEPS e3 (processed.2 ++ step.2) []
    some (true, { drained.1 with
      intent_queue := drained.2.1,
      intent_buffer := [], report_buffer := drained.2.2 })

/-- `Engine::on_market_event`: the elapsed monotonic time is an ambient input
(`elapsed_ns`); a latency sample (`min` against `u64::MAX`, then at least 1)
is recorded only when the event applied. -/
def Engine.on_market_event {σ ν : Type} (sImpl : StrategyImpl σ)
    (vImpl : VenueImpl ν) (e : Engine σ ν) (event : MarketEvent)
    (elapsed_ns : Nat) : Option (Bool × Engine σ ν) :=
  match Engine.on_market_event_det sImpl vImpl e event with
  | none => none
  | some (false, e') => some (false, e')
  | some (true, e') =>
    let ns := min elapsed_ns (2 ^ 64 - 1)
    some (true, { e' with latency := e'.latency ++ [max ns 1] })

/-- Only the symbol-mismatch branch of `OrderBook::apply` returns `false`,
and it leaves the book unchanged. -/
theorem OrderBook.apply_false (bk : OrderBook) (ev : MarketEvent)
    (b : OrderBook) (h : OrderBook.apply bk ev = some (false, b)) : b = bk := by
  cases ev with
  | L2Delta ts sym updates =>
    rw [show OrderBook.apply bk (MarketEvent.L2Delta ts sym updates) =
        (if sym ≠ bk.symbol then some (false, bk)
         else some (true, updates.foldl OrderBook.applyUpdate bk)) from rfl] at h
    by_cases hs : sym ≠ bk.symbol
    · rw [if_pos hs] at h
      simp only [Option.some.injEq, Prod.mk.injEq] at h
      exact h.2.symm
    · rw [if_neg hs] at h
      simp at h
  | L2Snapshot ts sym bids asks => simp [OrderBook.apply] at h

/-! ## Claim C9: mismatched events leave the engine untouched -/

/-- C9: for every engine (over any strategy and venue implementation) and
every market event on which `book.apply` returns `false` (symbol mismatch),
`on_market_event` returns `false` and the engine — book, portfolio, OMS,
risk, strategy, venue, latency samples and all three scratch buffers — is
exactly the engine it started with: no latency sample is recorded and no
component is invoked. -/
theorem engine_mismatch_event_noop {σ ν : Type} (sImpl : StrategyImpl σ)
    (vImpl : VenueImpl ν) (e : Engine σ ν) (event : MarketEvent)
    (elapsed_ns : Nat) (b : OrderBook)
    (h : OrderBook.apply e.book event = some (false, b)) :
    Engine.on_market_event sImpl vImpl e event elapsed_ns = some (false, e) := by
  have hb := OrderBook.apply_false e.book event b h
  subst hb
  simp only [Engine.on_market_event, Engine.on_market_event_det, h]

/-- A strategy implementation with no state that emits nothing. -/
def stratNoop : StrategyImpl Unit :=
  { on_market_event := fun s _ _ => (s, []),
    on_timer := fun s _ => (s, []),
    on_execution_report := fun s _ _ => (s, []) }

/-- A venue implementation with no state that emits nothing. -/
def venueNull : VenueImpl Unit :=
  { submit := fun v _ _ => (v, []),
    on_book_update := fun v _ => (v, []) }

/-- A concrete engine over symbol 0 with an allow-all risk chain. -/
def engineC9 : Engine Unit Unit :=
  { book := OrderBook.new 0, portfolio := Portfolio.new, oms := Oms.new,
    risk := fun _ intent => RiskAction.Allow intent, strategy := (),
    venue := (), latency := [], intent_queue := [], intent_buffer := [],
    report_buffer := [] }

/-- A delta for symbol 1, mismatching `engineC9`'s book (symbol 0). -/
def eventC9 : MarketEvent := MarketEvent.L2Delta 3 1 []

/-- C9 witness: the cross-symbol delta leaves the concrete engine unchanged
and returns `false`. -/
theorem engine_mismatch_event_noop_witness :
    Engine.on_market_event stratNoop venueNull engineC9 eventC9 5 =
      some (false, engineC9) :=
  engine_mismatch_event_noop stratNoop venueNull engineC9 eventC9 5
    (OrderBook.new 0) (by decide)

/-! ## Event codec (`codec`)

Text is modelled as its UTF-8 byte sequence (`List Nat`); both wire formats
are byte sequences.  `serde_json` / `bincode` are external libraries: the
embedding implements their concrete wire grammars for the two record shapes
the codec serializes — `serde_json` restricted to the canonical form its
encoder emits (no whitespace, declaration field order), `bincode` with its
default fixed-width little-endian configuration. -/

/-- `codec::CodecError` (payloads reduced to what the claims inspect). -/
inductive CodecError where
  | EmptyLine
  | Json
  | Core
  | UnknownSymbolId (id : Nat)
  | BinaryRecordTooShort
  | BinaryMagicMismatch (magic : List Nat)
  | BinaryUnsupportedVersion (version : Nat)
  | BinaryLengthMismatch (expected actual : Nat)
  | BinaryChecksumMismatch (expected actual : Nat)
  | BinaryLengthOverflow (len : Nat)
  | Binary
deriving DecidableEq, Repr

/-- ASCII whitespace bytes (`char::is_whitespace` on ASCII text). -/
def isWsByte (b : Nat) : Bool :=
  b = 9 || b = 10 || b = 11 || b = 12 || b = 13 || b = 32

/-- `str::trim` on a byte sequence. -/
def trimBytes (t : List Nat) : List Nat :=
  ((t.dropWhile isWsByte).reverse.dropWhile isWsByte).reverse

/-- Modelled from the spec: `lob_core::SymbolTable` is not under `src/` (the
codec crate only uses it).  Spec 3: a bidirectional mapping text ↔ SymbolId,
insertion-order stable; `intern(text)` returns an existing id or assigns
`len()` as the next id after trimming whitespace; empty text is rejected.
The text list is the `id → text` direction, position = id. -/
structure SymbolTable where
  by_id : List (List Nat)
deriving DecidableEq, Repr

/-- Modelled from the spec: `SymbolTable::try_resolve` (id → text). -/
def SymbolTable.try_resolve (tbl : SymbolTable) (id : Nat) : Option (List Nat) :=
  tbl.by_id[id]?

/-- The insertion-order index of a text in the table. -/
def tblIndexOf (t : List Nat) : List (List Nat) → Option Nat
  | [] => none
  | s :: rest => if s = t then some 0 else (tblIndexOf t rest).map (· + 1)

/-- Modelled from the spec: `SymbolTable::try_intern` (text → id, trimming
whitespace, rejecting empty text, extending the table with fresh text). -/
def SymbolTable.try_intern (tbl : SymbolTable) (t : List Nat) :
    Except CodecError (Nat × SymbolTable) :=
  let tr := trimBytes t
  if tr = [] then Except.error CodecError.Core
  else
    match tblIndexOf tr tbl.by_id with
    | some i => Except.ok (i, tbl)
    | none => Except.ok (tbl.by_id.length, ⟨tbl.by_id ++ [tr]⟩)

/-- Well-formedness of a table built by `try_intern`: stored texts are
trimmed, non-empty, of `u64`-encodable length, made of bytes (a Rust
`String` is a byte sequence), and pairwise distinct. -/
def SymbolTable.WF (tbl : SymbolTable) : Prop :=
  (∀ t ∈ tbl.by_id,
      trimBytes t = t ∧ t ≠ [] ∧ t.length < 2 ^ 64 ∧ ∀ b ∈ t, b < 256) ∧
    tbl.by_id.Nodup

theorem tblIndexOf_get (l : List (List Nat)) (id : Nat) (t : List Nat)
    (hnd : l.Nodup) (hget : l[id]? = some t) : tblIndexOf t l = some id := by
  induction l generalizing id with
  | nil => simp at hget
  | cons s rest ih =>
    cases id with
    | zero =>
      simp at hget
      subst hget
      simp [tblIndexOf]
    | succ n =>
      simp at hget
      have hne : s ≠ t := by
        intro hst
        subst hst
        exact (List.nodup_cons.mp hnd).1 (List.getElem?_mem hget)
      have hih := ih n (List.nodup_cons.mp hnd).2 hget
      simp [tblIndexOf, hne, hih]

/-- Resolving an id of a well-formed table and interning the text again is
the identity: the id comes back and the table is unchanged. -/
theorem try_intern_try_resolve (tbl : SymbolTable) (id : Nat) (t : List Nat)
    (hwf : tbl.WF) (h : tbl.try_resolve id = some t) :
    tbl.try_intern t = Except.ok (id, tbl) := by
  obtain ⟨htexts, hnd⟩ := hwf
  have hmem : t ∈ tbl.by_id := List.getElem?_mem h
  obtain ⟨htrim, hne, -⟩ := htexts t hmem
  unfold SymbolTable.try_intern
  rw [htrim, if_neg hne, tblIndexOf_get tbl.by_id id t hnd h]

/-! ### Byte-level primitives shared by the two wire grammars -/

/-- Consume an exact byte sequence from the front of the input. -/
def expectBytes : List Nat → List Nat → Option (List Nat)
  | [], input => some input
  | _ :: _, [] => none
  | p :: ps, b :: rest => if b = p then expectBytes ps rest else none

theorem expectBytes_append (pat rest : List Nat) :
    expectBytes pat (pat ++ rest) = some rest := by
  induction pat with
  | nil => rfl
  | cons p ps ih => simp [expectBytes, ih]

/-- Decimal digits of a natural number, most significant first
(`itoa`-style formatting used by `serde_json`). -/
def printNat (n : Nat) : List Nat :=
  if n < 10 then [48 + n]
  else printNat (n / 10) ++ [48 + n % 10]
termination_by n
decreasing_by exact Nat.div_lt_self (by omega) (by omega)

/-- ASCII decimal digit test. -/
def isDigitByte (b : Nat) : Bool := 48 ≤ b && b ≤ 57

/-- Consume a maximal run of decimal digits, MSB-first accumulation. -/
def parseNatAux (acc : Nat) : List Nat → Nat × List Nat
  | [] => (acc, [])
  | b :: rest =>
    if isDigitByte b then parseNatAux (acc * 10 + (b - 48)) rest
    else (acc, b :: rest)

/-- Parse a decimal natural number (at least one digit). -/
def parseNatBytes (input : List Nat) : Option (Nat × List Nat) :=
  match input with
  | [] => none
  | b :: _ => if isDigitByte b then some (parseNatAux 0 input) else none

theorem printNat_digits (n : Nat) : ∀ b ∈ printNat n, isDigitByte b = true := by
  induction n using Nat.strong_induction_on with
  | _ n ih =>
    intro b hb
    by_cases h : n < 10
    · rw [printNat, if_pos h] at hb
      simp at hb
      subst hb
      simp [isDigitByte]
      omega
    · rw [printNat, if_neg h] at hb
      simp at hb
      rcases hb with hb | hb
      · exact ih (n / 10) (Nat.div_lt_self (by omega) (by omega)) b hb
      · subst hb
        simp [isDigitByte]
        omega

theorem printNat_ne_nil (n : Nat) : printNat n ≠ [] := by
  by_cases h : n < 10 <;> rw [printNat] <;> simp [h]

theorem parseNatAux_digits (ds : List Nat) (hds : ∀ b ∈ ds, isDigitByte b = true) :
    ∀ (acc : Nat) (rest : List Nat),
      (∀ b, rest.head? = some b → isDigitByte b = false) →
      parseNatAux acc (ds ++ rest) =
        (ds.foldl (fun a b => a * 10 + (b - 48)) acc, rest) := by
  induction ds with
  | nil =>
    intro acc rest hrest
    cases rest with
    | nil => rfl
    | cons b tl =>
      have := hrest b rfl
      simp [parseNatAux, this]
  | cons d tl ih =>
    intro acc rest hrest
    have hd := hds d (by simp)
    simp only [List.cons_append, parseNatAux, hd, if_true, List.foldl_cons]
    exact ih (fun b hb => hds b (by simp [hb])) _ rest hrest

theorem foldl_printNat (n : Nat) : ∀ acc : Nat,
    (printNat n).foldl (fun a b => a * 10 + (b - 48)) acc =
      acc * 10 ^ (printNat n).length + n := by
  induction n using Nat.strong_induction_on with
  | _ n ih =>
    intro acc
    by_cases h : n < 10
    · rw [printNat, if_pos h]
      simp
    · rw [printNat, if_neg h]
      rw [List.foldl_append, ih (n / 10) (Nat.div_lt_self (by omega) (by omega))]
      simp only [List.foldl_cons, List.foldl_nil, List.length_append,
        List.length_cons, List.length_nil, Nat.add_zero, Nat.zero_add,
        pow_succ, ← Nat.mul_assoc]
      generalize acc * 10 ^ (printNat (n / 10)).length = A
      omega

theorem parseNatBytes_print (n : Nat) (rest : List Nat)
    (hrest : ∀ b, rest.head? = some b → isDigitByte b = false) :
    parseNatBytes (printNat n ++ rest) = some (n, rest) := by
  obtain ⟨b, tl, hcons⟩ : ∃ b tl, printNat n = b :: tl := by
    cases hp : printNat n with
    | nil => exact absurd hp (printNat_ne_nil n)
    | cons b tl => exact ⟨b, tl, rfl⟩
  have hb : isDigitByte b = true := printNat_digits n b (by simp [hcons])
  rw [hcons]
  simp only [List.cons_append, parseNatBytes, hb, if_true]
  have hback : b :: (tl ++ rest) = printNat n ++ rest := by
    rw [hcons, List.cons_append]
  rw [hback, parseNatAux_digits (printNat n) (printNat_digits n) 0 rest hrest,
    foldl_printNat n 0]
  simp

/-- `serde_json` integer formatting: optional minus sign, then digits. -/
def printInt (v : Int) : List Nat :=
  if v < 0 then 45 :: printNat (-v).toNat else printNat v.toNat

/-- Parse an optionally signed decimal integer. -/
def parseIntBytes (input : List Nat) : Option (Int × List Nat) :=
  match input with
  | [] => none
  | b :: rest =>
    if b = 45 then (parseNatBytes rest).map fun p => (-(p.1 : Int), p.2)
    else (parseNatBytes (b :: rest)).map fun p => ((p.1 : Int), p.2)

theorem parseIntBytes_print (v : Int) (rest : List Nat)
    (hrest : ∀ b, rest.head? = some b → isDigitByte b = false) :
    parseIntBytes (printInt v ++ rest) = some (v, rest) := by
  by_cases hv : v < 0
  · rw [printInt, if_pos hv]
    simp only [List.cons_append, parseIntBytes, if_pos rfl]
    rw [parseNatBytes_print _ rest hrest]
    simp
    omega
  · rw [printInt, if_neg hv]
    obtain ⟨b, tl, hcons⟩ : ∃ b tl, printNat v.toNat = b :: tl := by
      cases hp : printNat v.toNat with
      | nil => exact absurd hp (printNat_ne_nil _)
      | cons b tl => exact ⟨b, tl, rfl⟩
    have hb : isDigitByte b = true :=
      printNat_digits v.toNat b (by rw [hcons]; simp)
    have hb45 : b ≠ 45 := by
      simp [isDigitByte] at hb
      omega
    rw [hcons]
    simp only [List.cons_append, parseIntBytes, hb45, if_false]
    have hback : b :: (tl ++ rest) = printNat v.toNat ++ rest := by
      rw [hcons, List.cons_append]
    rw [hback, parseNatBytes_print _ rest hrest]
    simp [Int.toNat_of_nonneg (show (0 : Int) ≤ v by omega)]

/-- One lowercase hex digit (`serde_json`'s `0123456789abcdef` table). -/
def hexDigit (n : Nat) : Nat := if n < 10 then 48 + n else 87 + n

/-- `serde_json` byte escaping inside a string literal: quote and backslash
are escaped, control bytes use the short escapes or `\u00XX`, all other
bytes pass through raw. -/
def escByte (b : Nat) : List Nat :=
  if b = 34 then [92, 34]
  else if b = 92 then [92, 92]
  else if b = 8 then [92, 98]
  else if b = 9 then [92, 116]
  else if b = 10 then [92, 110]
  else if b = 12 then [92, 102]
  else if b = 13 then [92, 114]
  else if b < 32 then [92, 117, 48, 48, hexDigit (b / 16), hexDigit (b % 16)]
  else [b]

/-- Escape every byte of a string body. -/
def escBytes : List Nat → List Nat
  | [] => []
  | b :: rest => escByte b ++ escBytes rest

/-- A JSON string literal: quote, escaped body, quote. -/
def printString (s : List Nat) : List Nat := 34 :: (escBytes s ++ [34])

/-- The value of one hex digit byte. -/
def hexVal (c : Nat) : Option Nat :=
  if 48 ≤ c ∧ c ≤ 57 then some (c - 48)
  else if 97 ≤ c ∧ c ≤ 102 then some (c - 87)
  else if 65 ≤ c ∧ c ≤ 70 then some (c - 55)
  else none

/-- Parse the body of a JSON string literal up to the closing quote,
undoing the escapes. -/
def parseStringBody : List Nat → Option (List Nat × List Nat)
  | [] => none
  | b :: rest =>
    if b = 34 then some ([], rest)
    else if b = 92 then
      match rest with
      | [] => none
      | c :: rest2 =>
        if c = 34 then (parseStringBody rest2).map fun p => (34 :: p.1, p.2)
        else if c = 92 then (parseStringBody rest2).map fun p => (92 :: p.1, p.2)
        else if c = 98 then (parseStringBody rest2).map fun p => (8 :: p.1, p.2)
        else if c = 116 then (parseStringBody rest2).map fun p => (9 :: p.1, p.2)
        else if c = 110 then (parseStringBody rest2).map fun p => (10 :: p.1, p.2)
        else if c = 102 then (parseStringBody rest2).map fun p => (12 :: p.1, p.2)
        else if c = 114 then (parseStringBody rest2).map fun p => (13 :: p.1, p.2)
        else if c = 47 then (parseStringBody rest2).map fun p => (47 :: p.1, p.2)
        else if c = 117 then
          match rest2 with
          | h1 :: h2 :: h3 :: h4 :: rest3 =>
            match hexVal h1, hexVal h2, hexVal h3, hexVal h4 with
            | some a, some b1, some c1, some d =>
              (parseStringBody rest3).map fun p =>
                ((a * 4096 + b1 * 256 + c1 * 16 + d) :: p.1, p.2)
            | _, _, _, _ => none
          | _ => none
        else none
    else (parseStringBody rest).map fun p => (b :: p.1, p.2)

/-- Parse a JSON string literal (opening quote, body, closing quote). -/
def parseStringLit (input : List Nat) : Option (List Nat × List Nat) :=
  match input with
  | [] => none
  | b :: rest => if b = 34 then parseStringBody rest else none

theorem hexVal_hexDigit (n : Nat) (h : n < 16) : hexVal (hexDigit n) = some n := by
  unfold hexVal hexDigit
  by_cases h10 : n < 10
  · rw [if_pos h10, if_pos (by omega : 48 ≤ 48 + n ∧ 48 + n ≤ 57)]
    simp only [Option.some.injEq]
    omega
  · rw [if_neg h10, if_neg (by omega : ¬(48 ≤ 87 + n ∧ 87 + n ≤ 57)),
      if_pos (by omega : 97 ≤ 87 + n ∧ 87 + n ≤ 102)]
    simp only [Option.some.injEq]
    omega

theorem parseStringBody_esc (s rest : List Nat) :
    parseStringBody (escBytes s ++ (34 :: rest)) = some (s, rest) := by
  induction s with
  | nil =>
    show parseStringBody (34 :: rest) = _
    rw [parseStringBody.eq_def]
    simp
  | cons b tl ih =>
    show parseStringBody ((escByte b ++ escBytes tl) ++ (34 :: rest)) = _
    rw [List.append_assoc]
    by_cases h34 : b = 34
    · subst h34
      rw [show escByte 34 = [92, 34] from rfl, List.cons_append,
        List.cons_append, List.nil_append, parseStringBody.eq_def]
      simp [ih]
    · by_cases h92 : b = 92
      · subst h92
        rw [show escByte 92 = [92, 92] from rfl, List.cons_append,
          List.cons_append, List.nil_append, parseStringBody.eq_def]
        simp [ih]
      · by_cases h8 : b = 8
        · subst h8
          rw [show escByte 8 = [92, 98] from rfl, List.cons_append,
            List.cons_append, List.nil_append, parseStringBody.eq_def]
          simp [ih]
        · by_cases h9 : b = 9
          · subst h9
            rw [show escByte 9 = [92, 116] from rfl, List.cons_append,
              List.cons_append, List.nil_append, parseStringBody.eq_def]
            simp [ih]
          · by_cases h10 : b = 10
            · subst h10
              rw [show escByte 10 = [92, 110] from rfl, List.cons_append,
                List.cons_append, List.nil_append, parseStringBody.eq_def]
              simp [ih]
            · by_cases h12 : b = 12
              · subst h12
                rw [show escByte 12 = [92, 102] from rfl, List.cons_append,
                  List.cons_append, List.nil_append, parseStringBody.eq_def]
                simp [ih]
              · by_cases h13 : b = 13
                · subst h13
                  rw [show escByte 13 = [92, 114] from rfl, List.cons_append,
                    List.cons_append, List.nil_append, parseStringBody.eq_def]
                  simp [ih]
                · by_cases hlt : b < 32
                  · have h16a : b / 16 < 16 := by omega
                    have h16b : b % 16 < 16 := by omega
                    rw [show escByte b =
                        [92, 117, 48, 48, hexDigit (b / 16), hexDigit (b % 16)]
                      from by simp [escByte, h34, h92, h8, h9, h10, h12, h13,
                        hlt]]
                    simp only [List.cons_append, List.nil_append]
                    rw [parseStringBody.eq_def]
                    simp [ih, hexVal_hexDigit _ h16a, hexVal_hexDigit _ h16b,
                      show hexVal 48 = some 0 from rfl]
                    omega
                  · rw [show escByte b = [b] from by
                        simp [escByte, h34, h92, h8, h9, h10, h12, h13, hlt]]
                    simp only [List.cons_append, List.nil_append]
                    rw [parseStringBody.eq_def]
                    simp [h34, h92, ih]

theorem parseStringLit_print (s rest : List Nat) :
    parseStringLit (printString s ++ rest) = some (s, rest) := by
  simp only [printString, List.cons_append, parseStringLit, if_pos rfl]
  rw [List.append_assoc]
  exact parseStringBody_esc s rest

/-- The wire-level event: the source's `JsonMarketEvent` and `BinMarketEvent`
have this identical shape (the symbol resolved to its text). -/
inductive WireMarketEvent where
  | L2Delta (ts_ns : Nat) (symbol : List Nat) (updates : List LevelUpdate)
  | L2Snapshot (ts_ns : Nat) (symbol : List Nat) (bids asks : List (Int × Int))
deriving DecidableEq, Repr

/-- `serde` rendering of `Side` (`rename_all = "snake_case"`). -/
def printSide : Side → List Nat
  | Side.Bid => printString [98, 105, 100]
  | Side.Ask => printString [97, 115, 107]

/-- `serde_json` rendering of a `LevelUpdate`:
`{"side":...,"price":P,"qty":Q}`. -/
def printUpdate (u : LevelUpdate) : List Nat :=
  [123, 34, 115, 105, 100, 101, 34, 58] ++ printSide u.side ++
  [44, 34, 112, 114, 105, 99, 101, 34, 58] ++ printInt u.price ++
  [44, 34, 113, 116, 121, 34, 58] ++ printInt u.qty ++ [125]

/-- `serde_json` rendering of a `(Price, Qty)` tuple: `[P,Q]`. -/
def printPair (pq : Int × Int) : List Nat :=
  91 :: (printInt pq.1 ++ 44 :: (printInt pq.2 ++ [93]))

/-- Comma-separated rendering of array elements. -/
def printSep {α : Type} (pr : α → List Nat) : List α → List Nat
  | [] => []
  | [x] => pr x
  | x :: y :: rest => pr x ++ 44 :: printSep pr (y :: rest)

/-- A JSON array. -/
def printArr {α : Type} (pr : α → List Nat) (xs : List α) : List Nat :=
  91 :: (printSep pr xs ++ [93])

/-- `{"type":"l2_delta","data":{"ts_ns":` -/
def deltaPre : List Nat :=
  [123, 34, 116, 121, 112, 101, 34, 58, 34, 108, 50, 95, 100, 101, 108, 116,
   97, 34, 44, 34, 100, 97, 116, 97, 34, 58, 123, 34, 116, 115, 95, 110, 115,
   34, 58]

/-- `{"type":"l2_snapshot","data":{"ts_ns":` -/
def snapPre : List Nat :=
  [123, 34, 116, 121, 112, 101, 34, 58, 34, 108, 50, 95, 115, 110, 97, 112,
   115, 104, 111, 116, 34, 44, 34, 100, 97, 116, 97, 34, 58, 123, 34, 116,
   115, 95, 110, 115, 34, 58]

/-- `,"symbol":` -/
def symKey : List Nat := [44, 34, 115, 121, 109, 98, 111, 108, 34, 58]

/-- `,"updates":` -/
def updatesKey : List Nat := [44, 34, 117, 112, 100, 97, 116, 101, 115, 34, 58]

/-- `,"bids":` -/
def bidsKey : List Nat := [44, 34, 98, 105, 100, 115, 34, 58]

/-- `,"asks":` -/
def asksKey : List Nat := [44, 34, 97, 115, 107, 115, 34, 58]

/-- The canonical `serde_json` line for a wire event (what
`serde_json::to_string` emits for the tag/content representation with fields
in declaration order and no whitespace). -/
def encode_event_json : WireMarketEvent → List Nat
  | WireMarketEvent.L2Delta ts sym updates =>
    deltaPre ++ printNat ts ++ symKey ++ printString sym ++ updatesKey ++
      printArr printUpdate updates ++ [125, 125]
  | WireMarketEvent.L2Snapshot ts sym bids asks =>
    snapPre ++ printNat ts ++ symKey ++ printString sym ++ bidsKey ++
      printArr printPair bids ++ asksKey ++ printArr printPair asks ++
      [125, 125]

/-- Parse a `Side` string. -/
def parseSide (input : List Nat) : Option (Side × List Nat) :=
  match expectBytes [34, 98, 105, 100, 34] input with
  | some r => some (Side.Bid, r)
  | none =>
    match expectBytes [34, 97, 115, 107, 34] input with
    | some r => some (Side.Ask, r)
    | none => none

/-- Parse a `LevelUpdate` object. -/
def parseUpdate (input : List Nat) : Option (LevelUpdate × List Nat) :=
  (expectBytes [123, 34, 115, 105, 100, 101, 34, 58] input).bind fun r1 =>
  (parseSide r1).bind fun ps =>
  (expectBytes [44, 34, 112, 114, 105, 99, 101, 34, 58] ps.2).bind fun r3 =>
  (parseIntBytes r3).bind fun pp =>
  (expectBytes [44, 34, 113, 116, 121, 34, 58] pp.2).bind fun r5 =>
  (parseIntBytes r5).bind fun pq =>
  (expectBytes [125] pq.2).map fun r7 =>
  ({ side := ps.1, price := pp.1, qty := pq.1 }, r7)

/-- Parse a `[P,Q]` pair. -/
def parsePair (input : List Nat) : Option ((Int × Int) × List Nat) :=
  (expectBytes [91] input).bind fun r1 =>
  (parseIntBytes r1).bind fun pp =>
  (expectBytes [44] pp.2).bind fun r3 =>
  (parseIntBytes r3).bind fun pq =>
  (expectBytes [93] pq.2).map fun r5 =>
  ((pp.1, pq.1), r5)

/-- Parse the comma-separated elements of a non-empty array, ending at `]`. -/
def parseArrAux {α : Type} (p : List Nat → Option (α × List Nat)) :
    Nat → List Nat → Option (List α × List Nat)
  | 0, _ => none
  | Nat.succ fuel, input =>
    (p input).bind fun x =>
      match x.2 with
      | [] => none
      | c :: rest2 =>
        if c = 44 then
          (parseArrAux p fuel rest2).map fun q => (x.1 :: q.1, q.2)
        else if c = 93 then some ([x.1], rest2)
        else none

/-- Parse a JSON array (fuel: one element consumes at least one byte). -/
def parseArr {α : Type} (p : List Nat → Option (α × List Nat))
    (input : List Nat) : Option (List α × List Nat) :=
  match input with
  | [] => none
  | b :: rest =>
    if b = 91 then
      match rest with
      | [] => none
      | c :: rest2 =>
        if c = 93 then some ([], rest2)
        else parseArrAux p rest.length rest
    else none

theorem parseSide_print (s : Side) (rest : List Nat) :
    parseSide (printSide s ++ rest) = some (s, rest) := by
  cases s with
  | Bid =>
    rw [show printSide Side.Bid = [34, 98, 105, 100, 34] from rfl]
    simp [parseSide, expectBytes]
  | Ask =>
    rw [show printSide Side.Ask = [34, 97, 115, 107, 34] from rfl]
    simp [parseSide, expectBytes]

theorem parseUpdate_print (u : LevelUpdate) (rest : List Nat) :
    parseUpdate (printUpdate u ++ rest) = some (u, rest) := by
  unfold printUpdate parseUpdate
  simp only [List.append_assoc]
  rw [expectBytes_append]
  simp only [Option.some_bind]
  rw [parseSide_print]
  simp only [Option.some_bind]
  rw [expectBytes_append]
  simp only [Option.some_bind]
  rw [parseIntBytes_print u.price _ (by intro b hb; simp at hb; subst hb; rfl)]
  simp only [Option.some_bind]
  rw [expectBytes_append]
  simp only [Option.some_bind]
  rw [parseIntBytes_print u.qty _ (by intro b hb; simp at hb; subst hb; rfl)]
  simp only [Option.some_bind]
  rw [expectBytes_append]
  simp

theorem parsePair_print (pq : Int × Int) (rest : List Nat) :
    parsePair (printPair pq ++ rest) = some (pq, rest) := by
  unfold printPair parsePair
  rw [show (91 : Nat) :: (printInt pq.1 ++ 44 :: (printInt pq.2 ++ [93])) ++
      rest = [91] ++ (printInt pq.1 ++ ([44] ++ (printInt pq.2 ++
      ([93] ++ rest)))) from by simp]
  rw [expectBytes_append]
  simp only [Option.some_bind]
  rw [parseIntBytes_print pq.1 _ (by intro b hb; simp at hb; subst hb; rfl)]
  simp only [Option.some_bind]
  rw [expectBytes_append]
  simp only [Option.some_bind]
  rw [parseIntBytes_print pq.2 _ (by intro b hb; simp at hb; subst hb; rfl)]
  simp only [Option.some_bind]
  rw [expectBytes_append]
  simp

theorem printSep_length_ge {α : Type} (pr : α → List Nat)
    (hne : ∀ x, pr x ≠ []) (xs : List α) :
    xs.length ≤ (printSep pr xs).length := by
  induction xs with
  | nil => simp [printSep]
  | cons x tl ih =>
    cases tl with
    | nil =>
      have h1 : (pr x).length ≠ 0 := by simpa using hne x
      simp only [printSep, List.length_cons, List.length_nil]
      omega
    | cons y ys =>
      have h1 : (pr x).length ≠ 0 := by simpa using hne x
      simp only [printSep, List.length_append, List.length_cons] at ih ⊢
      omega

theorem parseArrAux_print {α : Type} (p : List Nat → Option (α × List Nat))
    (pr : α → List Nat)
    (hp : ∀ (x : α) (r : List Nat), p (pr x ++ r) = some (x, r)) :
    ∀ (xs : List α) (fuel : Nat) (rest : List Nat), xs ≠ [] →
      xs.length ≤ fuel →
      parseArrAux p fuel (printSep pr xs ++ (93 :: rest)) = some (xs, rest) := by
  intro xs
  induction xs with
  | nil =>
    intro fuel rest h
    exact absurd rfl h
  | cons x tl ih =>
    intro fuel rest _ hlen
    obtain ⟨f, rfl⟩ : ∃ f, fuel = f + 1 :=
      ⟨fuel - 1, by simp at hlen; omega⟩
    cases tl with
    | nil =>
      show parseArrAux p (f + 1) (pr x ++ (93 :: rest)) = some ([x], rest)
      simp only [parseArrAux, hp x, Option.some_bind]
      simp
    | cons y ys =>
      show parseArrAux p (f + 1)
        ((pr x ++ 44 :: printSep pr (y :: ys)) ++ (93 :: rest)) = _
      rw [List.append_assoc, List.cons_append]
      simp only [parseArrAux, hp x, Option.some_bind]
      rw [ih f rest (by simp) (by simp at hlen ⊢; omega)]
      simp

theorem parseArr_print {α : Type} (p : List Nat → Option (α × List Nat))
    (pr : α → List Nat)
    (hp : ∀ (x : α) (r : List Nat), p (pr x ++ r) = some (x, r))
    (hne : ∀ x, pr x ≠ [])
    (hhead : ∀ x b, (pr x).head? = some b → b ≠ 93)
    (xs : List α) (rest : List Nat) :
    parseArr p (printArr pr xs ++ rest) = some (xs, rest) := by
  cases xs with
  | nil =>
    show parseArr p ((91 :: (printSep pr [] ++ [93])) ++ rest) = _
    simp [printSep, parseArr]
  | cons x tl =>
    obtain ⟨b, t, hbt⟩ : ∃ b t, pr x = b :: t := by
      cases hpr : pr x with
      | nil => exact absurd hpr (hne x)
      | cons b t => exact ⟨b, t, rfl⟩
    have hb93 : b ≠ 93 := hhead x b (by simp [hbt])
    obtain ⟨S, hS⟩ : ∃ S, printSep pr (x :: tl) = b :: S := by
      cases tl with
      | nil => exact ⟨t, by simp [printSep, hbt]⟩
      | cons y ys =>
        refine ⟨t ++ 44 :: printSep pr (y :: ys), ?_⟩
        simp [printSep, hbt]
    show parseArr p ((91 :: (printSep pr (x :: tl) ++ [93])) ++ rest) = _
    rw [List.cons_append, List.append_assoc]
    rw [show ([93] ++ rest) = 93 :: rest from rfl]
    unfold parseArr
    dsimp only
    rw [if_pos rfl]
    have hcons : printSep pr (x :: tl) ++ (93 :: rest) = b :: (S ++ 93 :: rest) := by
      rw [hS, List.cons_append]
    rw [hcons]
    dsimp only
    rw [if_neg hb93]
    rw [← hcons]
    apply parseArrAux_print p pr hp (x :: tl) _ rest (by simp)
    have hlen := printSep_length_ge pr hne (x :: tl)
    simp only [List.length_append, List.length_cons]
    simp at hlen ⊢
    omega

/-- The canonical-form parser for the wire event: the grammar of
`serde_json::from_str` restricted to the encoder's canonical output, with
full-input consumption. -/
def decode_event_json (input : List Nat) : Option WireMarketEvent :=
  match expectBytes deltaPre input with
  | some r1 =>
    (parseNatBytes r1).bind fun pts =>
    (expectBytes symKey pts.2).bind fun r3 =>
    (parseStringLit r3).bind fun psym =>
    (expectBytes updatesKey psym.2).bind fun r5 =>
    (parseArr parseUpdate r5).bind fun pupd =>
    (expectBytes [125, 125] pupd.2).bind fun r7 =>
    if r7 = [] then some (WireMarketEvent.L2Delta pts.1 psym.1 pupd.1)
    else none
  | none =>
    match expectBytes snapPre input with
    | some r1 =>
      (parseNatBytes r1).bind fun pts =>
      (expectBytes symKey pts.2).bind fun r3 =>
      (parseStringLit r3).bind fun psym =>
      (expectBytes bidsKey psym.2).bind fun r5 =>
      (parseArr parsePair r5).bind fun pbids =>
      (expectBytes asksKey pbids.2).bind fun r7 =>
      (parseArr parsePair r7).bind fun pasks =>
      (expectBytes [125, 125] pasks.2).bind fun r9 =>
      if r9 = [] then
        some (WireMarketEvent.L2Snapshot pts.1 psym.1 pbids.1 pasks.1)
      else none
    | none => none

theorem printUpdate_head (u : LevelUpdate) :
    printUpdate u ≠ [] ∧ ∀ b, (printUpdate u).head? = some b → b ≠ 93 := by
  constructor
  · simp [printUpdate]
  · intro b hb
    simp [printUpdate] at hb
    omega

theorem printPair_head (pq : Int × Int) :
    printPair pq ≠ [] ∧ ∀ b, (printPair pq).head? = some b → b ≠ 93 := by
  constructor
  · simp [printPair]
  · intro b hb
    simp [printPair] at hb
    omega

theorem decode_encode_json (w : WireMarketEvent) :
    decode_event_json (encode_event_json w) = some w := by
  cases w with
  | L2Delta ts sym updates =>
    unfold encode_event_json decode_event_json
    simp only [List.append_assoc]
    rw [expectBytes_append]
    dsimp only
    rw [parseNatBytes_print ts _
      (by intro b hb; simp [symKey] at hb; subst hb; rfl)]
    simp only [Option.some_bind]
    rw [expectBytes_append]
    simp only [Option.some_bind]
    rw [parseStringLit_print]
    simp only [Option.some_bind]
    rw [expectBytes_append]
    simp only [Option.some_bind]
    rw [parseArr_print parseUpdate printUpdate parseUpdate_print
      (fun u => (printUpdate_head u).1) (fun u => (printUpdate_head u).2)
      updates _]
    simp only [Option.some_bind]
    rw [show expectBytes [125, 125] [125, 125] = some [] from rfl]
    simp
  | L2Snapshot ts sym bids asks =>
    unfold encode_event_json decode_event_json
    have hmiss : ∀ r : List Nat, expectBytes deltaPre (snapPre ++ r) = none := by
      intro r
      simp [deltaPre, snapPre, expectBytes]
    simp only [List.append_assoc]
    rw [hmiss]
    rw [expectBytes_append]
    dsimp only
    rw [parseNatBytes_print ts _
      (by intro b hb; simp [symKey] at hb; subst hb; rfl)]
    simp only [Option.some_bind]
    rw [expectBytes_append]
    simp only [Option.some_bind]
    rw [parseStringLit_print]
    simp only [Option.some_bind]
    rw [expectBytes_append]
    simp only [Option.some_bind]
    rw [parseArr_print parsePair printPair parsePair_print
      (fun pq => (printPair_head pq).1) (fun pq => (printPair_head pq).2)
      bids _]
    simp only [Option.some_bind]
    rw [expectBytes_append]
    simp only [Option.some_bind]
    rw [parseArr_print parsePair printPair parsePair_print
      (fun pq => (printPair_head pq).1) (fun pq => (printPair_head pq).2)
      asks _]
    simp only [Option.some_bind]
    rw [show expectBytes [125, 125] [125, 125] = some [] from rfl]
    simp

/-- `JsonMarketEvent::from_core` / `BinMarketEvent::from_core`: resolve the
event's symbol id to its text. -/
def WireMarketEvent.from_core (event : MarketEvent) (symbols : SymbolTable) :
    Except CodecError WireMarketEvent :=
  match event with
  | MarketEvent.L2Delta ts_ns symbol updates =>
    match symbols.try_resolve symbol with
    | some text => Except.ok (WireMarketEvent.L2Delta ts_ns text updates)
    | none => Except.error (CodecError.UnknownSymbolId symbol)
  | MarketEvent.L2Snapshot ts_ns symbol bids asks =>
    match symbols.try_resolve symbol with
    | some text => Except.ok (WireMarketEvent.L2Snapshot ts_ns text bids asks)
    | none => Except.error (CodecError.UnknownSymbolId symbol)

/-- `JsonMarketEvent::into_core` / `BinMarketEvent::into_core`: intern the
text back to an id, possibly extending the table. -/
def WireMarketEvent.into_core (w : WireMarketEvent) (symbols : SymbolTable) :
    Except CodecError (MarketEvent × SymbolTable) :=
  match w with
  | WireMarketEvent.L2Delta ts_ns text updates =>
    (symbols.try_intern text).map fun p =>
      (MarketEvent.L2Delta ts_ns p.1 updates, p.2)
  | WireMarketEvent.L2Snapshot ts_ns text bids asks =>
    (symbols.try_intern text).map fun p =>
      (MarketEvent.L2Snapshot ts_ns p.1 bids asks, p.2)

/-- `codec::encode_event_json_line`. -/
def encode_event_json_line (event : MarketEvent) (symbols : SymbolTable) :
    Except CodecError (List Nat) :=
  (WireMarketEvent.from_core event symbols).map encode_event_json

/-- `str::strip_suffix` for a single byte. -/
def strip_suffix_byte (line : List Nat) (b : Nat) : List Nat :=
  if line.getLast? = some b then line.dropLast else line

/-- `codec::decode_event_json_line`: strip one trailing newline, then one
trailing carriage return, reject empty lines, then parse. -/
def decode_event_json_line (line : List Nat) (symbols : SymbolTable) :
    Except CodecError (MarketEvent × SymbolTable) :=
  let l1 := strip_suffix_byte line 10
  let l2 := strip_suffix_byte l1 13
  if l2 = [] then Except.error CodecError.EmptyLine
  else
    match decode_event_json l2 with
    | some w => w.into_core symbols
    | none => Except.error CodecError.Json

theorem encode_event_json_getLast (w : WireMarketEvent) :
    (encode_event_json w).getLast? = some 125 := by
  cases w <;> simp [encode_event_json, List.getLast?_append]

theorem encode_event_json_ne_nil (w : WireMarketEvent) :
    encode_event_json w ≠ [] := by
  cases w <;> simp [encode_event_json, deltaPre, snapPre]

/-- The symbol id of an event. -/
def MarketEvent.symbol : MarketEvent → Nat
  | MarketEvent.L2Delta _ symbol _ => symbol
  | MarketEvent.L2Snapshot _ symbol _ _ => symbol

theorem into_core_from_core (event : MarketEvent) (tbl : SymbolTable)
    (w : WireMarketEvent) (hwf : tbl.WF)
    (h : WireMarketEvent.from_core event tbl = Except.ok w) :
    w.into_core tbl = Except.ok (event, tbl) := by
  cases event with
  | L2Delta ts sym updates =>
    cases hres : tbl.try_resolve sym with
    | none => simp [WireMarketEvent.from_core, hres] at h
    | some text =>
      simp only [WireMarketEvent.from_core, hres, Except.ok.injEq] at h
      subst h
      simp [WireMarketEvent.into_core, Except.map,
        try_intern_try_resolve tbl sym text hwf hres]
  | L2Snapshot ts sym bids asks =>
    cases hres : tbl.try_resolve sym with
    | none => simp [WireMarketEvent.from_core, hres] at h
    | some text =>
      simp only [WireMarketEvent.from_core, hres, Except.ok.injEq] at h
      subst h
      simp [WireMarketEvent.into_core, Except.map,
        try_intern_try_resolve tbl sym text hwf hres]

/-- The JSON line round-trip: encoding a symbol-resolvable event and decoding
the line yields the event back with the table unchanged. -/
theorem json_line_roundtrip (event : MarketEvent) (tbl : SymbolTable)
    (hwf : tbl.WF) (hsym : event.symbol < tbl.by_id.length) :
    (encode_event_json_line event tbl).bind
      (fun line => decode_event_json_line line tbl) =
      Except.ok (event, tbl) := by
  have hres : tbl.try_resolve event.symbol =
      some (tbl.by_id.get ⟨event.symbol, hsym⟩) := by
    simp only [SymbolTable.try_resolve, List.get_eq_getElem]
    exact List.getElem?_eq_getElem hsym
  have key : ∀ w, WireMarketEvent.from_core event tbl = Except.ok w →
      (encode_event_json_line event tbl).bind
        (fun line => decode_event_json_line line tbl) =
        Except.ok (event, tbl) := by
    intro w hw
    rw [encode_event_json_line, hw]
    simp only [Except.map, Except.bind]
    rw [decode_event_json_line]
    have hlast := encode_event_json_getLast w
    have hstrip1 : strip_suffix_byte (encode_event_json w) 10 =
        encode_event_json w := by
      rw [strip_suffix_byte, if_neg (by rw [hlast]; simp)]
    have hstrip2 : strip_suffix_byte (encode_event_json w) 13 =
        encode_event_json w := by
      rw [strip_suffix_byte, if_neg (by rw [hlast]; simp)]
    simp only [hstrip1, hstrip2]
    rw [if_neg (encode_event_json_ne_nil w)]
    have hdec : decode_event_json (encode_event_json w) = some w :=
      decode_encode_json w
    rw [hdec]
    exact into_core_from_core event tbl w hwf hw
  cases event with
  | L2Delta ts sym updates =>
    apply key
    simp only [MarketEvent.symbol] at hres
    simp only [WireMarketEvent.from_core]
    rw [hres]
  | L2Snapshot ts sym bids asks =>
    apply key
    simp only [MarketEvent.symbol] at hres
    simp only [WireMarketEvent.from_core]
    rw [hres]

/-! ### Binary record format (`bincode` v1 default: fixed-width
little-endian, `u64` length prefixes, `u32` enum variant tags) -/

/-- `k` little-endian base-256 bytes of `n`. -/
def leBytes : Nat → Nat → List Nat
  | 0, _ => []
  | k + 1, n => (n % 256) :: leBytes k (n / 256)

/-- The value of a little-endian byte sequence. -/
def leVal : List Nat → Nat
  | [] => 0
  | b :: rest => b + 256 * leVal rest

theorem leBytes_length (k n : Nat) : (leBytes k n).length = k := by
  induction k generalizing n with
  | zero => rfl
  | succ k ih => simp [leBytes, ih]

theorem leVal_leBytes (k n : Nat) (h : n < 256 ^ k) :
    leVal (leBytes k n) = n := by
  induction k generalizing n with
  | zero =>
    simp [leBytes, leVal]
    omega
  | succ k ih =>
    have hdiv : n / 256 < 256 ^ k := by
      rw [Nat.div_lt_iff_lt_mul (by omega)]
      calc n < 256 ^ (k + 1) := h
        _ = 256 ^ k * 256 := by rw [pow_succ]
    simp only [leBytes, leVal, ih (n / 256) hdiv]
    omega

/-- Read `k` bytes off the front of the input. -/
def takeBytes (k : Nat) (input : List Nat) : Option (List Nat × List Nat) :=
  if input.length < k then none else some (input.take k, input.drop k)

theorem takeBytes_append (chunk rest : List Nat) (k : Nat)
    (h : chunk.length = k) :
    takeBytes k (chunk ++ rest) = some (chunk, rest) := by
  subst h
  rw [takeBytes, if_neg (by simp)]
  rw [List.take_left, List.drop_left]

/-- Parse a `k`-byte little-endian unsigned integer. -/
def parseLeNat (k : Nat) (input : List Nat) : Option (Nat × List Nat) :=
  (takeBytes k input).map fun p => (leVal p.1, p.2)

theorem parseLeNat_print (k n : Nat) (rest : List Nat) (h : n < 256 ^ k) :
    parseLeNat k (leBytes k n ++ rest) = some (n, rest) := by
  rw [parseLeNat, takeBytes_append _ _ _ (leBytes_length k n)]
  simp [leVal_leBytes k n h]

/-- An `i64` as its 8 little-endian two's-complement bytes. -/
def i64ToLe (v : Int) : List Nat := leBytes 8 ((v % (2 ^ 64 : Int)).toNat)

/-- Parse an 8-byte little-endian two's-complement `i64`. -/
def parseI64 (input : List Nat) : Option (Int × List Nat) :=
  (parseLeNat 8 input).map fun p =>
    (if p.1 < 2 ^ 63 then (p.1 : Int) else (p.1 : Int) - 2 ^ 64, p.2)

theorem parseI64_print (v : Int) (rest : List Nat)
    (h1 : -(2 ^ 63) ≤ v) (h2 : v < 2 ^ 63) :
    parseI64 (i64ToLe v ++ rest) = some (v, rest) := by
  rw [i64ToLe, parseI64]
  have hm : ((v % (2 ^ 64 : Int))).toNat < 256 ^ 8 := by
    have h256 : (256 : Nat) ^ 8 = 2 ^ 64 := by norm_num
    rw [h256]
    omega
  rw [parseLeNat_print 8 _ _ hm]
  simp only [Option.map_some', Option.some.injEq, Prod.mk.injEq]
  constructor
  · split
    · omega
    · omega
  · trivial

/-- The `bincode` variant index of `Side`. -/
def sideIdx : Side → Nat
  | Side.Bid => 0
  | Side.Ask => 1

/-- `bincode` encoding of a `LevelUpdate` (side tag, price, qty). -/
def bin_encode_update (u : LevelUpdate) : List Nat :=
  leBytes 4 (sideIdx u.side) ++ i64ToLe u.price ++ i64ToLe u.qty

/-- `bincode` encoding of a `(Price, Qty)` tuple. -/
def bin_encode_pair (pq : Int × Int) : List Nat :=
  i64ToLe pq.1 ++ i64ToLe pq.2

/-- `bincode` encoding of the wire event: variant tag, `ts_ns`,
length-prefixed symbol bytes, length-prefixed element lists. -/
def bin_encode_payload : WireMarketEvent → List Nat
  | WireMarketEvent.L2Delta ts sym updates =>
    leBytes 4 0 ++ leBytes 8 ts ++ leBytes 8 sym.length ++ sym ++
      leBytes 8 updates.length ++ (updates.map bin_encode_update).flatten
  | WireMarketEvent.L2Snapshot ts sym bids asks =>
    leBytes 4 1 ++ leBytes 8 ts ++ leBytes 8 sym.length ++ sym ++
      leBytes 8 bids.length ++ (bids.map bin_encode_pair).flatten ++
      leBytes 8 asks.length ++ (asks.map bin_encode_pair).flatten

/-- Parse a `bincode` `Side` tag. -/
def parseSideBin (input : List Nat) : Option (Side × List Nat) :=
  (parseLeNat 4 input).bind fun p =>
    if p.1 = 0 then some (Side.Bid, p.2)
    else if p.1 = 1 then some (Side.Ask, p.2)
    else none

/-- Parse a `bincode` `LevelUpdate`. -/
def parseUpdateBin (input : List Nat) : Option (LevelUpdate × List Nat) :=
  (parseSideBin input).bind fun ps =>
  (parseI64 ps.2).bind fun pp =>
  (parseI64 pp.2).map fun pq =>
  ({ side := ps.1, price := pp.1, qty := pq.1 }, pq.2)

/-- Parse a `bincode` `(Price, Qty)` tuple. -/
def parsePairBin (input : List Nat) : Option ((Int × Int) × List Nat) :=
  (parseI64 input).bind fun pp =>
  (parseI64 pp.2).map fun pq =>
  ((pp.1, pq.1), pq.2)

/-- Parse exactly `n` consecutive elements. -/
def parseNElems {α : Type} (p : List Nat → Option (α × List Nat)) :
    Nat → List Nat → Option (List α × List Nat)
  | 0, input => some ([], input)
  | n + 1, input =>
    (p input).bind fun x =>
      (parseNElems p n x.2).map fun q => (x.1 :: q.1, q.2)

/-- Parse a `u64`-length-prefixed byte string. -/
def parseBytesList (input : List Nat) : Option (List Nat × List Nat) :=
  (parseLeNat 8 input).bind fun pl => takeBytes pl.1 pl.2

/-- Parse a `bincode` wire event payload. -/
def bin_decode_payload (payload : List Nat) : Option WireMarketEvent :=
  (parseLeNat 4 payload).bind fun pv =>
  match pv.1 with
  | 0 =>
    (parseLeNat 8 pv.2).bind fun pts =>
    (parseBytesList pts.2).bind fun psym =>
    (parseLeNat 8 psym.2).bind fun pn =>
    (parseNElems parseUpdateBin pn.1 pn.2).map fun pu =>
    WireMarketEvent.L2Delta pts.1 psym.1 pu.1
  | 1 =>
    (parseLeNat 8 pv.2).bind fun pts =>
    (parseBytesList pts.2).bind fun psym =>
    (parseLeNat 8 psym.2).bind fun pb =>
    (parseNElems parsePairBin pb.1 pb.2).bind fun pbids =>
    (parseLeNat 8 pbids.2).bind fun pa =>
    (parseNElems parsePairBin pa.1 pa.2).map fun pasks =>
    WireMarketEvent.L2Snapshot pts.1 psym.1 pbids.1 pasks.1
  | _ => none

/-- A price or quantity representable as an `i64`. -/
def I64Range (v : Int) : Prop := -(2 ^ 63) ≤ v ∧ v < 2 ^ 63

/-- Value ranges of a valid wire event: `u64` timestamp and lengths, symbol
text made of bytes, `i64` prices and quantities. -/
def WireMarketEvent.Valid : WireMarketEvent → Prop
  | WireMarketEvent.L2Delta ts sym updates =>
    ts < 2 ^ 64 ∧ sym.length < 2 ^ 64 ∧ (∀ b ∈ sym, b < 256) ∧
      updates.length < 2 ^ 64 ∧
      ∀ u ∈ updates, I64Range u.price ∧ I64Range u.qty
  | WireMarketEvent.L2Snapshot ts sym bids asks =>
    ts < 2 ^ 64 ∧ sym.length < 2 ^ 64 ∧ (∀ b ∈ sym, b < 256) ∧
      bids.length < 2 ^ 64 ∧ asks.length < 2 ^ 64 ∧
      (∀ pq ∈ bids, I64Range pq.1 ∧ I64Range pq.2) ∧
      (∀ pq ∈ asks, I64Range pq.1 ∧ I64Range pq.2)

theorem parseSideBin_print (s : Side) (rest : List Nat) :
    parseSideBin (leBytes 4 (sideIdx s) ++ rest) = some (s, rest) := by
  cases s with
  | Bid =>
    rw [parseSideBin, parseLeNat_print 4 _ _ (by norm_num [sideIdx])]
    simp [sideIdx]
  | Ask =>
    rw [parseSideBin, parseLeNat_print 4 _ _ (by norm_num [sideIdx])]
    simp [sideIdx]

theorem parseUpdateBin_print (u : LevelUpdate)
    (hu : I64Range u.price ∧ I64Range u.qty)
    (rest : List Nat) :
    parseUpdateBin (bin_encode_update u ++ rest) = some (u, rest) := by
  obtain ⟨⟨hp1, hp2⟩, hq1, hq2⟩ := hu
  rw [bin_encode_update, parseUpdateBin]
  simp only [List.append_assoc]
  rw [parseSideBin_print]
  simp only [Option.some_bind]
  rw [parseI64_print u.price _ hp1 hp2]
  simp only [Option.some_bind]
  rw [parseI64_print u.qty _ hq1 hq2]
  simp

theorem parsePairBin_print (pq : Int × Int)
    (hpq : I64Range pq.1 ∧ I64Range pq.2)
    (rest : List Nat) :
    parsePairBin (bin_encode_pair pq ++ rest) = some (pq, rest) := by
  obtain ⟨⟨hp1, hp2⟩, hq1, hq2⟩ := hpq
  rw [bin_encode_pair, parsePairBin]
  simp only [List.append_assoc]
  rw [parseI64_print pq.1 _ hp1 hp2]
  simp only [Option.some_bind]
  rw [parseI64_print pq.2 _ hq1 hq2]
  simp

theorem parseNElems_print {α : Type} (p : List Nat → Option (α × List Nat))
    (pr : α → List Nat) (xs : List α) (rest : List Nat)
    (hp : ∀ x ∈ xs, ∀ r : List Nat, p (pr x ++ r) = some (x, r)) :
    parseNElems p xs.length ((xs.map pr).flatten ++ rest) = some (xs, rest) := by
  induction xs with
  | nil => simp [parseNElems]
  | cons x tl ih =>
    simp only [List.map_cons, List.flatten_cons, List.length_cons,
      List.append_assoc]
    rw [show parseNElems p (tl.length + 1)
        (pr x ++ ((tl.map pr).flatten ++ rest)) =
      (p (pr x ++ ((tl.map pr).flatten ++ rest))).bind fun xr =>
        (parseNElems p tl.length xr.2).map fun q => (xr.1 :: q.1, q.2)
      from rfl]
    rw [hp x (by simp) _]
    simp only [Option.some_bind]
    rw [ih (fun y hy r => hp y (by simp [hy]) r)]
    simp

theorem parseNElems_print_all {α : Type} (p : List Nat → Option (α × List Nat))
    (pr : α → List Nat) (xs : List α)
    (hp : ∀ x ∈ xs, ∀ r : List Nat, p (pr x ++ r) = some (x, r)) :
    parseNElems p xs.length (xs.map pr).flatten = some (xs, []) := by
  have h := parseNElems_print p pr xs [] hp
  simpa using h

theorem bin_decode_encode_payload (w : WireMarketEvent) (hw : w.Valid) :
    bin_decode_payload (bin_encode_payload w) = some w := by
  cases w with
  | L2Delta ts sym updates =>
    obtain ⟨hts, hsl, hsb, hul, helems⟩ := hw
    rw [bin_encode_payload, bin_decode_payload]
    simp only [List.append_assoc]
    rw [parseLeNat_print 4 0 _ (by norm_num)]
    simp only [Option.some_bind]
    rw [parseLeNat_print 8 ts _ (by norm_num; omega)]
    simp only [Option.some_bind]
    rw [parseBytesList, parseLeNat_print 8 sym.length _ (by norm_num; omega)]
    simp only [Option.some_bind]
    rw [takeBytes_append sym _ _ rfl]
    simp only [Option.some_bind]
    rw [parseLeNat_print 8 updates.length _ (by norm_num; omega)]
    simp only [Option.some_bind]
    rw [parseNElems_print_all parseUpdateBin bin_encode_update updates
      (fun u hu r => parseUpdateBin_print u (helems u hu) r)]
    simp
  | L2Snapshot ts sym bids asks =>
    obtain ⟨hts, hsl, hsb, hbl, hal, hbe, hae⟩ := hw
    rw [bin_encode_payload, bin_decode_payload]
    simp only [List.append_assoc]
    rw [parseLeNat_print 4 1 _ (by norm_num)]
    simp only [Option.some_bind]
    rw [parseLeNat_print 8 ts _ (by norm_num; omega)]
    simp only [Option.some_bind]
    rw [parseBytesList, parseLeNat_print 8 sym.length _ (by norm_num; omega)]
    simp only [Option.some_bind]
    rw [takeBytes_append sym _ _ rfl]
    simp only [Option.some_bind]
    rw [parseLeNat_print 8 bids.length _ (by norm_num; omega)]
    simp only [Option.some_bind]
    rw [parseNElems_print parsePairBin bin_encode_pair bids _
      (fun pq hpq r => parsePairBin_print pq (hbe pq hpq) r)]
    simp only [Option.some_bind]
    rw [parseLeNat_print 8 asks.length _ (by norm_num; omega)]
    simp only [Option.some_bind]
    rw [parseNElems_print_all parsePairBin bin_encode_pair asks
      (fun pq hpq r => parsePairBin_print pq (hae pq hpq) r)]
    simp

/-! ### CRC32 (`crc32fast::hash`, the IEEE polynomial, reflected) and the
length-framed binary record -/

/-- One shift-and-conditionally-xor round of the bitwise CRC32. -/
def crc32_step (c : Nat) : Nat :=
  if c % 2 = 1 then Nat.xor (c / 2) 3988292384 else c / 2

/-- `n` rounds of `crc32_step`. -/
def crc32_rounds : Nat → Nat → Nat
  | 0, c => c
  | n + 1, c => crc32_rounds n (crc32_step c)

/-- Fold one input byte into the CRC state. -/
def crc32_byte (c b : Nat) : Nat := crc32_rounds 8 (Nat.xor c b)

/-- `crc32fast::hash`: CRC-32/ISO-HDLC of the data. -/
def crc32fast_hash (data : List Nat) : Nat :=
  Nat.xor (data.foldl crc32_byte 4294967295) 4294967295

theorem crc32_step_lt (c : Nat) (h : c < 2 ^ 32) : crc32_step c < 2 ^ 32 := by
  rw [crc32_step]
  split
  · exact Nat.xor_lt_two_pow (by omega) (by norm_num)
  · omega

theorem crc32_rounds_lt (n c : Nat) (h : c < 2 ^ 32) :
    crc32_rounds n c < 2 ^ 32 := by
  induction n generalizing c with
  | zero => exact h
  | succ n ih => exact ih _ (crc32_step_lt c h)

theorem crc32_byte_lt (c b : Nat) (hc : c < 2 ^ 32) (hb : b < 256) :
    crc32_byte c b < 2 ^ 32 :=
  crc32_rounds_lt 8 _ (Nat.xor_lt_two_pow hc (by omega))

theorem crc32_foldl_lt (data : List Nat) (hbytes : ∀ b ∈ data, b < 256)
    (c : Nat) (hc : c < 2 ^ 32) : data.foldl crc32_byte c < 2 ^ 32 := by
  induction data generalizing c with
  | nil => exact hc
  | cons b tl ih =>
    exact ih (fun x hx => hbytes x (by simp [hx]))
      _ (crc32_byte_lt c b hc (hbytes b (by simp)))

theorem crc32fast_hash_lt (data : List Nat) (hbytes : ∀ b ∈ data, b < 256) :
    crc32fast_hash data < 2 ^ 32 :=
  Nat.xor_lt_two_pow (crc32_foldl_lt data hbytes _ (by norm_num)) (by norm_num)

/-- `codec::BIN_RECORD_MAGIC` (`b"LOB2"`). -/
def BIN_RECORD_MAGIC : List Nat := [76, 79, 66, 50]

/-- `codec::BIN_RECORD_VERSION`. -/
def BIN_RECORD_VERSION : Nat := 1

/-- `codec::BIN_RECORD_HEADER_LEN`: magic (4) + version (1) + payload
length (4) + checksum (4). -/
def BIN_RECORD_HEADER_LEN : Nat := 13

/-- `codec::BinRecordHeader`. -/
structure BinRecordHeader where
  payload_len : Nat
  checksum : Nat
deriving DecidableEq, Repr

/-- The framed record: magic, version, `u32` payload length, `u32` CRC32,
payload. -/
def bin_frame (payload : List Nat) : List Nat :=
  BIN_RECORD_MAGIC ++ BIN_RECORD_VERSION ::
    (leBytes 4 payload.length ++ (leBytes 4 (crc32fast_hash payload) ++ payload))

/-- `codec::encode_event_bin_record`: serialize the wire event, reject
payloads longer than a `u32` can express, and frame the payload. -/
def encode_event_bin_record (event : MarketEvent) (symbols : SymbolTable) :
    Except CodecError (List Nat) :=
  (WireMarketEvent.from_core event symbols).bind fun w =>
    if (bin_encode_payload w).length < 2 ^ 32 then
      Except.ok (bin_frame (bin_encode_payload w))
    else
      Except.error (CodecError.BinaryLengthOverflow (bin_encode_payload w).length)

/-- `codec::decode_event_bin_header`: length, magic and version checks, then
the two little-endian `u32` header fields. -/
def decode_event_bin_header (header : List Nat) :
    Except CodecError BinRecordHeader :=
  if header.length < BIN_RECORD_HEADER_LEN then
    Except.error CodecError.BinaryRecordTooShort
  else if header.take 4 ≠ BIN_RECORD_MAGIC then
    Except.error (CodecError.BinaryMagicMismatch (header.take 4))
  else if header.getD 4 0 ≠ BIN_RECORD_VERSION then
    Except.error (CodecError.BinaryUnsupportedVersion (header.getD 4 0))
  else
    Except.ok ⟨leVal ((header.drop 5).take 4), leVal ((header.drop 9).take 4)⟩

/-- `codec::decode_event_bin_payload`: `bincode` deserialization followed by
`into_core`. -/
def decode_event_bin_payload (payload : List Nat) (symbols : SymbolTable) :
    Except CodecError (MarketEvent × SymbolTable) :=
  match bin_decode_payload payload with
  | some w => w.into_core symbols
  | none => Except.error CodecError.Binary

/-- `codec::decode_event_bin_record`: header checks, payload length check
(`saturating_sub`), CRC check, then payload decode. -/
def decode_event_bin_record (record : List Nat) (symbols : SymbolTable) :
    Except CodecError (MarketEvent × SymbolTable) :=
  (decode_event_bin_header record).bind fun header =>
  if record.length - BIN_RECORD_HEADER_LEN ≠ header.payload_len then
    Except.error (CodecError.BinaryLengthMismatch header.payload_len
      (record.length - BIN_RECORD_HEADER_LEN))
  else if crc32fast_hash (record.drop BIN_RECORD_HEADER_LEN) ≠ header.checksum then
    Except.error (CodecError.BinaryChecksumMismatch header.checksum
      (crc32fast_hash (record.drop BIN_RECORD_HEADER_LEN)))
  else
    decode_event_bin_payload (record.drop BIN_RECORD_HEADER_LEN) symbols

theorem take_append_exact {α : Type} (l1 l2 : List α) (k : Nat)
    (h : l1.length = k) : (l1 ++ l2).take k = l1 := by
  subst h
  rw [List.take_left]

theorem drop_append_exact {α : Type} (l1 l2 : List α) (k : Nat)
    (h : l1.length = k) : (l1 ++ l2).drop k = l2 := by
  subst h
  rw [List.drop_left]

theorem bin_frame_length (p : List Nat) :
    (bin_frame p).length = 13 + p.length := by
  simp [bin_frame, BIN_RECORD_MAGIC, leBytes_length]
  omega

theorem bin_frame_header (p : List Nat) (hlen : p.length < 2 ^ 32)
    (hbytes : ∀ b ∈ p, b < 256) :
    decode_event_bin_header (bin_frame p) =
      Except.ok ⟨p.length, crc32fast_hash p⟩ := by
  have hC : crc32fast_hash p < 2 ^ 32 := crc32fast_hash_lt p hbytes
  have htake : (bin_frame p).take 4 = BIN_RECORD_MAGIC := rfl
  have hver : (bin_frame p).getD 4 0 = BIN_RECORD_VERSION := rfl
  have hdrop5 : (bin_frame p).drop 5 =
      leBytes 4 p.length ++ (leBytes 4 (crc32fast_hash p) ++ p) := rfl
  have hassoc : bin_frame p =
      (BIN_RECORD_MAGIC ++ BIN_RECORD_VERSION :: leBytes 4 p.length) ++
        (leBytes 4 (crc32fast_hash p) ++ p) := by
    rw [bin_frame]
    simp
  have hdrop9 : (bin_frame p).drop 9 = leBytes 4 (crc32fast_hash p) ++ p := by
    rw [hassoc]
    exact drop_append_exact _ _ 9
      (by simp [BIN_RECORD_MAGIC, leBytes_length])
  rw [decode_event_bin_header]
  rw [if_neg (by simp only [bin_frame_length, BIN_RECORD_HEADER_LEN]; omega)]
  rw [htake, if_neg (by simp)]
  rw [hver, if_neg (by simp)]
  rw [hdrop5, hdrop9]
  rw [take_append_exact _ _ 4 (leBytes_length 4 p.length)]
  rw [take_append_exact _ _ 4 (leBytes_length 4 (crc32fast_hash p))]
  rw [leVal_leBytes 4 p.length (by norm_num; omega)]
  rw [leVal_leBytes 4 (crc32fast_hash p) (by norm_num; omega)]

theorem bin_frame_decode (p : List Nat) (hlen : p.length < 2 ^ 32)
    (hbytes : ∀ b ∈ p, b < 256) (tbl : SymbolTable) :
    decode_event_bin_record (bin_frame p) tbl =
      decode_event_bin_payload p tbl := by
  have hdrop13 : (bin_frame p).drop BIN_RECORD_HEADER_LEN = p := by
    have hassoc : bin_frame p =
        (BIN_RECORD_MAGIC ++ BIN_RECORD_VERSION ::
          (leBytes 4 p.length ++ leBytes 4 (crc32fast_hash p))) ++ p := by
      rw [bin_frame]
      simp
    rw [hassoc]
    exact drop_append_exact _ _ BIN_RECORD_HEADER_LEN
      (by simp [BIN_RECORD_MAGIC, leBytes_length, BIN_RECORD_HEADER_LEN])
  rw [decode_event_bin_record, bin_frame_header p hlen hbytes]
  simp only [Except.bind]
  rw [hdrop13]
  rw [if_neg (by simp only [bin_frame_length, BIN_RECORD_HEADER_LEN]; omega)]
  rw [if_neg (by simp)]

theorem leBytes_mem_lt (k n : Nat) : ∀ b ∈ leBytes k n, b < 256 := by
  induction k generalizing n with
  | zero => simp [leBytes]
  | succ k ih =>
    intro b hb
    rw [leBytes, List.mem_cons] at hb
    rcases hb with h | h
    · omega
    · exact ih (n / 256) b h

theorem i64ToLe_mem_lt (v : Int) : ∀ b ∈ i64ToLe v, b < 256 :=
  leBytes_mem_lt 8 _

theorem bin_encode_update_mem_lt (u : LevelUpdate) :
    ∀ b ∈ bin_encode_update u, b < 256 := by
  intro b hb
  rw [bin_encode_update] at hb
  simp only [List.mem_append] at hb
  rcases hb with (h | h) | h
  · exact leBytes_mem_lt 4 _ b h
  · exact i64ToLe_mem_lt _ b h
  · exact i64ToLe_mem_lt _ b h

theorem bin_encode_pair_mem_lt (pq : Int × Int) :
    ∀ b ∈ bin_encode_pair pq, b < 256 := by
  intro b hb
  rw [bin_encode_pair] at hb
  simp only [List.mem_append] at hb
  rcases hb with h | h
  · exact i64ToLe_mem_lt _ b h
  · exact i64ToLe_mem_lt _ b h

theorem bin_encode_payload_mem_lt (w : WireMarketEvent) (hv : w.Valid) :
    ∀ b ∈ bin_encode_payload w, b < 256 := by
  cases w with
  | L2Delta ts sym updates =>
    obtain ⟨-, -, hsb, -, -⟩ := hv
    intro b hb
    rw [bin_encode_payload] at hb
    simp only [List.mem_append, List.mem_flatten, List.mem_map] at hb
    rcases hb with ((((h | h) | h) | h) | h) | ⟨l, ⟨u, hu, hl⟩, hbl⟩
    · exact leBytes_mem_lt 4 _ b h
    · exact leBytes_mem_lt 8 _ b h
    · exact leBytes_mem_lt 8 _ b h
    · exact hsb b h
    · exact leBytes_mem_lt 8 _ b h
    · exact bin_encode_update_mem_lt u b (hl ▸ hbl)
  | L2Snapshot ts sym bids asks =>
    obtain ⟨-, -, hsb, -, -, -, -⟩ := hv
    intro b hb
    rw [bin_encode_payload] at hb
    simp only [List.mem_append, List.mem_flatten, List.mem_map] at hb
    rcases hb with ((((((h | h) | h) | h) | h) |
        ⟨l, ⟨pq, hpq, hl⟩, hbl⟩) | h) | ⟨l, ⟨pq, hpq, hl⟩, hbl⟩
    · exact leBytes_mem_lt 4 _ b h
    · exact leBytes_mem_lt 8 _ b h
    · exact leBytes_mem_lt 8 _ b h
    · exact hsb b h
    · exact leBytes_mem_lt 8 _ b h
    · exact bin_encode_pair_mem_lt pq b (hl ▸ hbl)
    · exact leBytes_mem_lt 8 _ b h
    · exact bin_encode_pair_mem_lt pq b (hl ▸ hbl)

/-- Value ranges of a valid core event: `u64` timestamp and list lengths,
`i64` prices and quantities. -/
def MarketEvent.Valid : MarketEvent → Prop
  | MarketEvent.L2Delta ts _ updates =>
    ts < 2 ^ 64 ∧ updates.length < 2 ^ 64 ∧
      ∀ u ∈ updates, I64Range u.price ∧ I64Range u.qty
  | MarketEvent.L2Snapshot ts _ bids asks =>
    ts < 2 ^ 64 ∧ bids.length < 2 ^ 64 ∧ asks.length < 2 ^ 64 ∧
      (∀ pq ∈ bids, I64Range pq.1 ∧ I64Range pq.2) ∧
      (∀ pq ∈ asks, I64Range pq.1 ∧ I64Range pq.2)

theorem from_core_valid (event : MarketEvent) (tbl : SymbolTable)
    (w : WireMarketEvent) (hwf : tbl.WF) (hv : event.Valid)
    (h : WireMarketEvent.from_core event tbl = Except.ok w) : w.Valid := by
  obtain ⟨htexts, -⟩ := hwf
  cases event with
  | L2Delta ts sym updates =>
    cases hres : tbl.try_resolve sym with
    | none => simp [WireMarketEvent.from_core, hres] at h
    | some text =>
      simp only [WireMarketEvent.from_core, hres, Except.ok.injEq] at h
      subst h
      obtain ⟨-, -, hlen, hbyte⟩ := htexts text (List.getElem?_mem hres)
      obtain ⟨hts, hul, helems⟩ := hv
      exact ⟨hts, hlen, hbyte, hul, helems⟩
  | L2Snapshot ts sym bids asks =>
    cases hres : tbl.try_resolve sym with
    | none => simp [WireMarketEvent.from_core, hres] at h
    | some text =>
      simp only [WireMarketEvent.from_core, hres, Except.ok.injEq] at h
      subst h
      obtain ⟨-, -, hlen, hbyte⟩ := htexts text (List.getElem?_mem hres)
      obtain ⟨hts, hbl, hal, hbe, hae⟩ := hv
      exact ⟨hts, hlen, hbyte, hbl, hal, hbe, hae⟩

/-- The binary record round-trip: a record produced by the encoder decodes
back to the event with the table unchanged. -/
theorem bin_record_roundtrip (event : MarketEvent) (tbl : SymbolTable)
    (hwf : tbl.WF) (hv : event.Valid) (record : List Nat)
    (henc : encode_event_bin_record event tbl = Except.ok record) :
    decode_event_bin_record record tbl = Except.ok (event, tbl) := by
  rw [encode_event_bin_record] at henc
  cases hw : WireMarketEvent.from_core event tbl with
  | error e =>
    rw [hw] at henc
    simp [Except.bind] at henc
  | ok w =>
    rw [hw] at henc
    simp only [Except.bind] at henc
    have hwv : w.Valid := from_core_valid event tbl w hwf hv hw
    have hbytes : ∀ b ∈ bin_encode_payload w, b < 256 :=
      bin_encode_payload_mem_lt w hwv
    by_cases hlen : (bin_encode_payload w).length < 2 ^ 32
    · rw [if_pos hlen] at henc
      have hrec : record = bin_frame (bin_encode_payload w) := by
        cases henc
        rfl
      subst hrec
      rw [bin_frame_decode _ hlen hbytes tbl]
      rw [decode_event_bin_payload, bin_decode_encode_payload w hwv]
      exact into_core_from_core event tbl w hwf hw
    · rw [if_neg hlen] at henc
      cases henc

/-- C2: for every valid `MarketEvent` and a symbol table containing the
event's symbol, decoding the encoding yields the event back, both for the
JSON text line format (`decode_event_json_line` after
`encode_event_json_line`) and for the length-framed binary format
(`decode_event_bin_record` after `encode_event_bin_record`); the symbol
table comes back unchanged. -/
theorem codec_roundtrip (event : MarketEvent) (tbl : SymbolTable)
    (hwf : tbl.WF) (hsym : event.symbol < tbl.by_id.length)
    (hv : event.Valid) :
    ((encode_event_json_line event tbl).bind
        (fun line => decode_event_json_line line tbl) =
        Except.ok (event, tbl)) ∧
      ∀ record, encode_event_bin_record event tbl = Except.ok record →
        decode_event_bin_record record tbl = Except.ok (event, tbl) :=
  ⟨json_line_roundtrip event tbl hwf hsym,
    fun record henc => bin_record_roundtrip event tbl hwf hv record henc⟩

/-- A concrete event for the C2 witness: one delta on symbol 0. -/
def eventC2 : MarketEvent :=
  MarketEvent.L2Delta 1 0 [{ side := Side.Bid, price := 100, qty := 5 }]

/-- A concrete one-entry symbol table (`"AB"`) for the C2 witness. -/
def tblC2 : SymbolTable := ⟨[[65, 66]]⟩

theorem codec_roundtrip_witness :
    tblC2.WF ∧ eventC2.symbol < tblC2.by_id.length ∧ eventC2.Valid ∧
      (((encode_event_json_line eventC2 tblC2).bind
          (fun line => decode_event_json_line line tblC2) =
          Except.ok (eventC2, tblC2)) ∧
        ∀ record, encode_event_bin_record eventC2 tblC2 = Except.ok record →
          decode_event_bin_record record tblC2 = Except.ok (eventC2, tblC2)) := by
  have hwf : tblC2.WF := by
    constructor
    · intro t ht
      simp only [tblC2, List.mem_singleton] at ht
      subst ht
      exact ⟨by decide, by decide, by decide, by decide⟩
    · decide
  have hsym : eventC2.symbol < tblC2.by_id.length := by decide
  have hv : eventC2.Valid := by
    refine ⟨by decide, by decide, ?_⟩
    intro u hu
    simp only [eventC2, List.mem_singleton] at hu
    subst hu
    exact ⟨⟨by decide, by decide⟩, by decide, by decide⟩
  exact ⟨hwf, hsym, hv, codec_roundtrip eventC2 tblC2 hwf hsym hv⟩

end Replay
